import Mathlib

/-!
Batch sorting server (`server.go`)

A shallow embedding of the two sorters `sortSequential` and `sortConcurrent`
and of the two HTTP handlers, over an explicit model of the Go heap.

* A Go slice is a header (backing array, offset, length) or `nil`; the heap
  holds the backing arrays, and `make` appends a fresh one. Elements are
  integers; the program never does arithmetic on them, so the width of `int`
  plays no role.
* `sort.Ints` comes from the Go standard library; it is modelled by an
  insertion sort on the slice's window. The ascending arrangement of a list
  of integers is unique (`sortInts_unique`), so every correct implementation
  computes the same function.
* The goroutines of `sortConcurrent` are modelled by a small-step machine that
  is driven by a schedule: the list of actors (the main goroutine or one of the
  spawned goroutines) in the order in which they execute their next statement.
  A step is one statement of the source; `copy` and `sort.Ints` are single
  steps. The `sync.WaitGroup` is its counter: `Add` and `Done` change it,
  `Wait` blocks until it is zero.
* The monotonic clock is a function from the number of statements executed so
  far to a reading in nanoseconds; `time.Since(start)` is the difference of two
  readings.
* The JSON decoder of the handlers is a parameter; the encoder is modelled by
  the value it writes, in which a nil slice is `null`.
-/

namespace SortServer

/-! ## Slices and the heap -/

/-- Header of a non-nil slice: backing array, offset into it, length. The
capacity is never observed by the program and is left out. -/
structure Hdr where
  addr : Nat
  off : Nat
  len : Nat
deriving DecidableEq

/-- Go value of type `[]int`; `none` is the nil slice. -/
abbrev IntSlice := Option Hdr

/-- Go value of type `[][]int`; `none` is the nil slice. -/
abbrev BatchSlice := Option Hdr

/-- The heap and the statement counter. -/
structure World where
  /-- backing arrays of `[]int` slices, by address -/
  ints : List (List Int)
  /-- backing arrays of `[][]int` slices, by address -/
  rows : List (List IntSlice)
  /-- number of statements executed so far -/
  tick : Nat
deriving DecidableEq

/-- Go `len(s)`. -/
def lenOf (s : Option Hdr) : Nat :=
  match s with
  | none => 0
  | some h => h.len

/-- The window of a backing array that a header denotes. -/
def window {α : Type} (arr : List α) (h : Hdr) : List α :=
  (arr.drop h.off).take h.len

/-- Overwrite `arr` from position `off` on with `vals`. -/
def writeAt {α : Type} (arr : List α) (off : Nat) (vals : List α) : List α :=
  arr.take off ++ vals ++ arr.drop (off + vals.length)

/-- The elements of a `[]int` slice. -/
def readInts (w : World) (s : IntSlice) : List Int :=
  match s with
  | none => []
  | some h => window (w.ints.getD h.addr []) h

/-- The elements of a `[][]int` slice (slice headers). -/
def readRows (w : World) (b : BatchSlice) : List IntSlice :=
  match b with
  | none => []
  | some h => window (w.rows.getD h.addr []) h

/-- The batch a `[][]int` value denotes: each sub-array with its elements. -/
def contents (w : World) (b : BatchSlice) : List (List Int) :=
  (readRows w b).map (readInts w)

/-- A header lies inside an allocated backing array. -/
def inBounds {α : Type} (heap : List (List α)) (s : Option Hdr) : Prop :=
  match s with
  | none => True
  | some h => h.addr < heap.length ∧ h.off + h.len ≤ (heap.getD h.addr []).length

instance {α : Type} (heap : List (List α)) (s : Option Hdr) : Decidable (inBounds heap s) := by
  unfold inBounds
  cases s <;> infer_instance

/-- A batch value is well formed: the outer header and every sub-array header
lie inside allocated arrays (true of every value a Go program can hold). -/
def WF (w : World) (b : BatchSlice) : Prop :=
  inBounds w.rows b ∧ ∀ s ∈ readRows w b, inBounds w.ints s

instance (w : World) (b : BatchSlice) : Decidable (WF w b) := by
  unfold WF
  infer_instance

/-! ## Primitive statements -/

/-- Go `make([]int, n)`: a fresh zeroed array; the result is never nil. -/
def makeInts (w : World) (n : Nat) : World × IntSlice :=
  ({ w with ints := w.ints ++ [List.replicate n 0], tick := w.tick + 1 },
    some ⟨w.ints.length, 0, n⟩)

/-- Go `make([][]int, n)`: a fresh array of nil slices; the result is never nil. -/
def makeRows (w : World) (n : Nat) : World × BatchSlice :=
  ({ w with rows := w.rows ++ [List.replicate n none], tick := w.tick + 1 },
    some ⟨w.rows.length, 0, n⟩)

/-- Go `copy(dst, src)`: copies `min(len(dst), len(src))` elements. -/
def copyInts (w : World) (dst src : IntSlice) : World :=
  match dst with
  | none => { w with tick := w.tick + 1 }
  | some d =>
    { w with
      ints := w.ints.set d.addr
        (writeAt (w.ints.getD d.addr []) d.off ((readInts w src).take d.len))
      tick := w.tick + 1 }

/-- Insert `x` into an ascending list, before the first element that is not smaller. -/
def insertInt (x : Int) : List Int → List Int
  | [] => [x]
  | y :: ys => if x ≤ y then x :: y :: ys else y :: insertInt x ys

/-- The ascending arrangement of a list of integers (what `sort.Ints` leaves in
the slice). -/
def sortInts : List Int → List Int
  | [] => []
  | x :: xs => insertInt x (sortInts xs)

/-- Go `sort.Ints(s)`: sorts the window of `s` in place. -/
def sortIntsInPlace (w : World) (s : IntSlice) : World :=
  match s with
  | none => { w with tick := w.tick + 1 }
  | some h =>
    { w with
      ints := w.ints.set h.addr
        (writeAt (w.ints.getD h.addr []) h.off (sortInts (readInts w s)))
      tick := w.tick + 1 }

/-- Go `out[i] = v`; `none` is the index-out-of-range panic. -/
def storeRow (w : World) (out : BatchSlice) (i : Nat) (v : IntSlice) : Option World :=
  match out with
  | none => none
  | some h =>
    if i < h.len then
      some { w with
        rows := w.rows.set h.addr ((w.rows.getD h.addr []).set (h.off + i) v)
        tick := w.tick + 1 }
    else none

/-! ## `sortSequential` -/

/-- One iteration of the loop `for i, arr := range toSort` of `sortSequential`. -/
def seqBody (toSort sortedArrays : BatchSlice) (w : World) (i : Nat) : Option World :=
  let arr := (readRows w toSort).getD i none
  let (w1, sorted) := makeInts w (lenOf arr)
  let w2 := copyInts w1 sorted arr
  let w3 := sortIntsInPlace w2 sorted
  storeRow w3 sortedArrays i sorted

/-- `sortSequential(toSort)`: the final heap, the returned slice and the
elapsed nanoseconds; `none` if a statement panics. -/
def sortSequential (clk : Nat → Int) (w : World) (toSort : BatchSlice) :
    Option (World × BatchSlice × Int) :=
  let start := clk w.tick
  let (w1, sortedArrays) := makeRows w (lenOf toSort)
  match (List.range (lenOf toSort)).foldlM (seqBody toSort sortedArrays) w1 with
  | none => none
  | some w2 => some (w2, sortedArrays, clk w2.tick - start)

/-! ## `sortConcurrent` -/

/-- A goroutine started by the `go` statement of `sortConcurrent`: its
arguments `index` and `input`, its local `sorted` (nil until assigned) and the
number of its statements already executed (`make`, `copy`, `sort.Ints`, the
store, the deferred `wg.Done`). -/
structure Task where
  index : Nat
  input : IntSlice
  sorted : IntSlice
  pc : Nat
deriving DecidableEq

/-- Control point of the main goroutine inside `sortConcurrent`. -/
inductive MainPc where
  /-- at the head of the range loop, about to start iteration `i` -/
  | loop (i : Nat)
  /-- inside iteration `i`, after `wg.Add(1)` and before the `go` statement -/
  | added (i : Nat) (arr : IntSlice)
  /-- at `wg.Wait()` -/
  | wait
  /-- past `time.Since(start)` -/
  | returned (elapsed : Int)
deriving DecidableEq

/-- State of one call of `sortConcurrent`. -/
structure Config where
  world : World
  /-- the counter of the `sync.WaitGroup` -/
  wg : Nat
  main : MainPc
  /-- the goroutines started so far, in the order of their `go` statements -/
  tasks : List Task
deriving DecidableEq

/-- Who executes the next statement. -/
inductive Actor where
  | main
  | task (j : Nat)
deriving DecidableEq

/-- The statement counter advances. -/
def tickW (w : World) : World := { w with tick := w.tick + 1 }

/-- The next statement of the main goroutine; `none` when it cannot run
(blocked in `wg.Wait()`, or returned). -/
def stepMain (clk : Nat → Int) (start : Int) (toSort : BatchSlice) (c : Config) :
    Option Config :=
  match c.main with
  | .loop i =>
    if i < lenOf toSort then
      some { c with
        world := tickW c.world
        wg := c.wg + 1
        main := .added i ((readRows c.world toSort).getD i none) }
    else some { c with world := tickW c.world, main := .wait }
  | .added i arr =>
    some { c with
      world := tickW c.world
      tasks := c.tasks ++ [{ index := i, input := arr, sorted := none, pc := 0 }]
      main := .loop (i + 1) }
  | .wait =>
    if c.wg = 0 then
      some { c with world := tickW c.world, main := .returned (clk c.world.tick - start) }
    else none
  | .returned _ => none

/-- The next statement of the `j`-th goroutine; `none` when there is no such
goroutine, when it has finished, or when the statement panics. -/
def stepTask (sortedArrays : BatchSlice) (c : Config) (j : Nat) : Option Config :=
  match c.tasks[j]? with
  | none => none
  | some t =>
    match t.pc with
    | 0 =>
      let (w, s) := makeInts c.world (lenOf t.input)
      some { c with world := w, tasks := c.tasks.set j { t with sorted := s, pc := 1 } }
    | 1 =>
      some { c with
        world := copyInts c.world t.sorted t.input
        tasks := c.tasks.set j { t with pc := 2 } }
    | 2 =>
      some { c with
        world := sortIntsInPlace c.world t.sorted
        tasks := c.tasks.set j { t with pc := 3 } }
    | 3 =>
      match storeRow c.world sortedArrays t.index t.sorted with
      | none => none
      | some w => some { c with world := w, tasks := c.tasks.set j { t with pc := 4 } }
    | 4 =>
      if c.wg = 0 then none
      else some { c with
        world := tickW c.world
        wg := c.wg - 1
        tasks := c.tasks.set j { t with pc := 5 } }
    | _ => none

/-- One statement of the chosen actor. -/
def step (clk : Nat → Int) (start : Int) (toSort sortedArrays : BatchSlice)
    (c : Config) (a : Actor) : Option Config :=
  match a with
  | .main => stepMain clk start toSort c
  | .task j => stepTask sortedArrays c j

/-- The actor has a statement to execute and is not blocked. -/
def canRun (c : Config) (a : Actor) : Bool :=
  match a with
  | .main =>
    match c.main with
    | .wait => c.wg = 0
    | .returned _ => false
    | _ => true
  | .task j =>
    match c.tasks[j]? with
    | some t => t.pc < 5
    | none => false

/-- Run a schedule; `none` if an actor is chosen that cannot run or a
statement panics. -/
def run (clk : Nat → Int) (start : Int) (toSort sortedArrays : BatchSlice)
    (c : Config) (sched : List Actor) : Option Config :=
  sched.foldlM (step clk start toSort sortedArrays) c

/-- The state in which the main goroutine enters the range loop. -/
def initConfig (w : World) : Config :=
  { world := w, wg := 0, main := .loop 0, tasks := [] }

/-- `sortConcurrent(toSort)` under the schedule `sched`: the final heap, the
returned slice and the elapsed nanoseconds; `none` if the schedule is not an
execution that ends with the function returning. -/
def sortConcurrent (clk : Nat → Int) (sched : List Actor) (w : World)
    (toSort : BatchSlice) : Option (World × BatchSlice × Int) :=
  let start := clk w.tick
  let (w1, sortedArrays) := makeRows w (lenOf toSort)
  match run clk start toSort sortedArrays (initConfig w1) sched with
  | none => none
  | some c =>
    match c.main with
    | .returned elapsed => some (c.world, sortedArrays, elapsed)
    | _ => none

/-- The configuration a schedule of the goroutines of `sortConcurrent` leads
to, complete or not. -/
def execute (clk : Nat → Int) (sched : List Actor) (w : World) (toSort : BatchSlice) :
    Option Config :=
  let start := clk w.tick
  let (w1, sortedArrays) := makeRows w (lenOf toSort)
  run clk start toSort sortedArrays (initConfig w1) sched

/-- A heap holding the batch `xss` in freshly decoded form: one backing array
per sub-array and one outer array. -/
def worldOf (xss : List (List Int)) : World :=
  { ints := xss
    rows := [(List.range xss.length).map fun i => some ⟨i, 0, (xss.getD i []).length⟩]
    tick := 0 }

/-- The batch value in `worldOf xss`. -/
def batchOf (xss : List (List Int)) : BatchSlice :=
  some ⟨0, 0, xss.length⟩

/-- The world `sortSequential` has reached after `k` iterations of its loop,
in closed form: `hdrs` are the sub-array headers of the input in `w0`. -/
def seqState (w0 : World) (hdrs : List IntSlice) (k : Nat) : World :=
  { ints := w0.ints ++ (hdrs.take k).map fun s => sortInts (readInts w0 s)
    rows := w0.rows ++ [(List.range hdrs.length).map fun i =>
      if i < k then some ⟨w0.ints.length + i, 0, lenOf (hdrs.getD i none)⟩ else none]
    tick := w0.tick + 1 + 4 * k }

/-! ## Invariant of the executions of `sortConcurrent` -/

/-- Backing array of a slice (0 for nil). -/
def addrOf (s : Option Hdr) : Nat :=
  match s with
  | none => 0
  | some h => h.addr

/-- What holds of the `j`-th goroutine at each of its control points: `ints` is
the current heap of integer arrays, `out` the current output array. -/
structure TaskOk (w0 : World) (hdrs : List IntSlice) (ints : List (List Int))
    (out : List IntSlice) (j : Nat) (t : Task) : Prop where
  index_eq : t.index = j
  index_lt : j < hdrs.length
  input_eq : t.input = hdrs.getD j none
  pc_le : t.pc ≤ 5
  hdr_eq : 1 ≤ t.pc → t.sorted = some ⟨addrOf t.sorted, 0, lenOf t.input⟩
  addr_ge : 1 ≤ t.pc → w0.ints.length ≤ addrOf t.sorted
  addr_lt : 1 ≤ t.pc → addrOf t.sorted < ints.length
  zeroed : t.pc = 1 → ints.getD (addrOf t.sorted) [] = List.replicate (lenOf t.input) 0
  copied : t.pc = 2 → ints.getD (addrOf t.sorted) [] = readInts w0 t.input
  sorted_eq : 3 ≤ t.pc → ints.getD (addrOf t.sorted) [] = sortInts (readInts w0 t.input)
  unstored : t.pc ≤ 3 → out[j]? = some none
  stored : 4 ≤ t.pc → out[j]? = some t.sorted

/-- The output array of a configuration. -/
def outArr (w0 : World) (c : Config) : List IntSlice :=
  c.world.rows.getD w0.rows.length []

/-- Number of goroutines that have not yet called `wg.Done`. -/
def live (ts : List Task) : Nat :=
  (ts.map fun t => if t.pc < 5 then 1 else 0).sum

/-- Number of statements the goroutines have executed. -/
def pcSum (ts : List Task) : Nat :=
  (ts.map fun t => t.pc).sum

/-- Number of statements the main goroutine has executed since entering the loop. -/
def mainProgress (n : Nat) : MainPc → Nat
  | .loop i => 2 * i
  | .added i _ => 2 * i + 1
  | .wait => 2 * n + 1
  | .returned _ => 2 * n + 2

/-- Number of statements executed since the main goroutine entered the loop. -/
def progress (n : Nat) (c : Config) : Nat :=
  mainProgress n c.main + pcSum c.tasks

/-- What holds at each control point of the main goroutine. -/
def MainOk (clk : Nat → Int) (w0 : World) (hdrs : List IntSlice) (c : Config) : Prop :=
  match c.main with
  | .loop i => c.tasks.length = i ∧ i ≤ hdrs.length ∧ c.wg = live c.tasks
  | .added i arr =>
    c.tasks.length = i ∧ i < hdrs.length ∧ arr = hdrs.getD i none ∧ c.wg = live c.tasks + 1
  | .wait => c.tasks.length = hdrs.length ∧ c.wg = live c.tasks
  | .returned e =>
    c.tasks.length = hdrs.length ∧ c.wg = 0 ∧ live c.tasks = 0 ∧
      e = clk (w0.tick + 7 * hdrs.length + 2) - clk w0.tick

/-- The invariant of the executions of `sortConcurrent` started in `w0` on
`toSort`. -/
structure Inv (clk : Nat → Int) (w0 : World) (toSort : BatchSlice) (c : Config) : Prop where
  rows_eq : c.world.rows = w0.rows ++ [outArr w0 c]
  out_len : (outArr w0 c).length = (readRows w0 toSort).length
  ints_pre : w0.ints <+: c.world.ints
  tick_eq : c.world.tick = w0.tick + 1 + progress (readRows w0 toSort).length c
  tasks_ok : ∀ j t, c.tasks[j]? = some t →
    TaskOk w0 (readRows w0 toSort) c.world.ints (outArr w0 c) j t
  distinct : ∀ (j j2 : Nat) (t t2 : Task),
    c.tasks[j]? = some t → c.tasks[j2]? = some t2 → j ≠ j2 →
    1 ≤ t.pc → 1 ≤ t2.pc → addrOf t.sorted ≠ addrOf t2.sorted
  unspawned : ∀ j, c.tasks.length ≤ j → j < (readRows w0 toSort).length →
    (outArr w0 c)[j]? = some none
  main_ok : MainOk clk w0 (readRows w0 toSort) c

/-- Postcondition shared by the two sorters: `w1` and `out` are the heap and
the slice returned by a call started in `w0` on `toSort`. -/
structure Post (w0 : World) (toSort : BatchSlice) (w1 : World) (out : BatchSlice) : Prop where
  /-- the returned slice is the freshly made one: non-nil, of the input's length -/
  out_eq : out = some ⟨w0.rows.length, 0, lenOf toSort⟩
  /-- every integer array that existed before the call is unchanged -/
  ints_pre : w0.ints <+: w1.ints
  /-- every array of slices that existed before is unchanged; one was added -/
  rows_eq : w1.rows = w0.rows ++ [readRows w1 out]
  out_len : (readRows w1 out).length = lenOf toSort
  /-- slot `m` holds a non-nil slice on a fresh array with the sorted elements of
  `toSort[m]` -/
  slot : ∀ m, m < lenOf toSort → ∃ h : Hdr, (readRows w1 out)[m]? = some (some h) ∧
    w0.ints.length ≤ h.addr ∧ inBounds w1.ints (some h) ∧
    readInts w1 (some h) = sortInts (readInts w0 ((readRows w0 toSort).getD m none))

/-! ## The HTTP handlers -/

/-- Go `SortRequest`. -/
structure SortRequest where
  toSort : BatchSlice

/-- JSON text of a `[]int` as `encoding/json` writes it: `none` is `null`. -/
def encodeInts (w : World) (s : IntSlice) : Option (List Int) :=
  match s with
  | none => none
  | some _ => some (readInts w s)

/-- JSON text of a `[][]int` as `encoding/json` writes it: `none` is `null`. -/
def encodeRows (w : World) (b : BatchSlice) : Option (List (Option (List Int))) :=
  match b with
  | none => none
  | some _ => some ((readRows w b).map (encodeInts w))

/-- What a handler does with its `http.ResponseWriter`. -/
inductive Reply where
  /-- `http.Error(w, msg, code)` -/
  | httpError (msg : String) (code : Nat)
  /-- `json.NewEncoder(w).Encode(SortResponse{sortedArrays, timeNs})` -/
  | encoded (sortedArrays : Option (List (Option (List Int)))) (timeNs : Int)
deriving DecidableEq

/-- HTTP status of a reply; a reply that starts with a write has status 200. -/
def Reply.status : Reply → Nat
  | .httpError _ code => code
  | .encoded _ _ => 200

/-- Go `http.StatusBadRequest`. -/
def statusBadRequest : Nat := 400

/-- `processSingleHandler`. The JSON decoder of the standard library is the
parameter `decode`: from the body and the heap, the error or the heap with the
decoded request. `none` is a panic. -/
def processSingleHandler (decode : String → World → Except String (World × SortRequest))
    (clk : Nat → Int) (w : World) (body : String) : Option (World × Reply) :=
  match decode body w with
  | .error err => some (w, .httpError err statusBadRequest)
  | .ok (w1, req) =>
    match sortSequential clk w1 req.toSort with
    | none => none
    | some (w2, sortedArrays, timeTaken) =>
      some (w2, .encoded (encodeRows w2 sortedArrays) timeTaken)

/-- `processConcurrentHandler`, under the schedule `sched` of its goroutines. -/
def processConcurrentHandler (decode : String → World → Except String (World × SortRequest))
    (clk : Nat → Int) (sched : List Actor) (w : World) (body : String) :
    Option (World × Reply) :=
  match decode body w with
  | .error err => some (w, .httpError err statusBadRequest)
  | .ok (w1, req) =>
    match sortConcurrent clk sched w1 req.toSort with
    | none => none
    | some (w2, sortedArrays, timeTaken) =>
      some (w2, .encoded (encodeRows w2 sortedArrays) timeTaken)

/-! ## The sorting function -/

theorem insertInt_eq_orderedInsert (x : Int) (l : List Int) :
    insertInt x l = List.orderedInsert (fun a b : Int => a ≤ b) x l := by
  induction l with
  | nil => rfl
  | cons y ys ih => simp [insertInt, List.orderedInsert, ih]

theorem sortInts_eq_insertionSort (l : List Int) :
    sortInts l = List.insertionSort (fun a b : Int => a ≤ b) l := by
  induction l with
  | nil => rfl
  | cons x xs ih => simp [sortInts, List.insertionSort, ih, insertInt_eq_orderedInsert]

theorem sortInts_sorted (l : List Int) : List.Sorted (fun a b : Int => a ≤ b) (sortInts l) := by
  rw [sortInts_eq_insertionSort]
  exact List.sorted_insertionSort _ l

theorem sortInts_perm (l : List Int) : List.Perm (sortInts l) l := by
  rw [sortInts_eq_insertionSort]
  exact List.perm_insertionSort _ l

theorem sortInts_length (l : List Int) : (sortInts l).length = l.length :=
  (sortInts_perm l).length_eq

/-- Whatever a sorting routine leaves behind, if it is ascending and a
rearrangement of the input, it is `sortInts` of the input. -/
theorem sortInts_unique (l r : List Int) (hs : List.Sorted (fun a b : Int => a ≤ b) r)
    (hp : List.Perm r l) : r = sortInts l :=
  List.eq_of_perm_of_sorted (hp.trans (sortInts_perm l).symm) hs (sortInts_sorted l)

theorem sortInts_of_sorted (l : List Int) (hs : List.Sorted (fun a b : Int => a ≤ b) l) :
    sortInts l = l :=
  (sortInts_unique l l hs (List.Perm.refl l)).symm

theorem sortInts_congr (l r : List Int) (hp : List.Perm l r) : sortInts l = sortInts r :=
  sortInts_unique r (sortInts l) (sortInts_sorted l) ((sortInts_perm l).trans hp)

theorem sortInts_idem (l : List Int) : sortInts (sortInts l) = sortInts l :=
  sortInts_of_sorted _ (sortInts_sorted l)

/-! ## Reading and writing the heap -/

theorem window_full {α : Type} (l : List α) (a : Nat) : window l ⟨a, 0, l.length⟩ = l := by
  simp [window]

theorem window_length {α : Type} (arr : List α) (h : Hdr) (hb : h.off + h.len ≤ arr.length) :
    (window arr h).length = h.len := by
  simp [window]
  omega

theorem writeAt_full {α : Type} (arr vals : List α) (h : arr.length ≤ vals.length) :
    writeAt arr 0 vals = vals := by
  simp [writeAt, List.drop_eq_nil_of_le h]

theorem getD_snoc_self {α : Type} (l : List α) (x d : α) : (l ++ [x]).getD l.length d = x := by
  simp [List.getD_eq_getElem?_getD]

theorem set_snoc_self {α : Type} (l : List α) (x y : α) : (l ++ [x]).set l.length y = l ++ [y] := by
  simp [List.set_append]

/-- Appending arrays to the heap of `[]int` arrays does not change what an
in-bounds slice reads. -/
theorem readInts_append (w w1 : World) (extra : List (List Int)) (s : IntSlice)
    (hw : w1.ints = w.ints ++ extra) (hb : inBounds w.ints s) :
    readInts w1 s = readInts w s := by
  cases s with
  | none => rfl
  | some h =>
    simp only [inBounds] at hb
    simp only [readInts, hw]
    rw [List.getD_append _ _ _ _ hb.1]

theorem readRows_append (w w1 : World) (extra : List (List IntSlice)) (b : BatchSlice)
    (hw : w1.rows = w.rows ++ extra) (hb : inBounds w.rows b) :
    readRows w1 b = readRows w b := by
  cases b with
  | none => rfl
  | some h =>
    simp only [inBounds] at hb
    simp only [readRows, hw]
    rw [List.getD_append _ _ _ _ hb.1]

theorem readInts_length (w : World) (s : IntSlice) (hb : inBounds w.ints s) :
    (readInts w s).length = lenOf s := by
  cases s with
  | none => rfl
  | some h =>
    simp only [inBounds] at hb
    simpa [readInts, lenOf] using window_length _ h hb.2

theorem readRows_length (w : World) (b : BatchSlice) (hb : inBounds w.rows b) :
    (readRows w b).length = lenOf b := by
  cases b with
  | none => rfl
  | some h =>
    simp only [inBounds] at hb
    simpa [readRows, lenOf] using window_length _ h hb.2

theorem copyInts_fresh (w : World) (a n : Nat) (src : IntSlice)
    (h1 : (w.ints.getD a []).length = n) (h2 : (readInts w src).length = n) :
    copyInts w (some ⟨a, 0, n⟩) src =
      { w with ints := w.ints.set a (readInts w src), tick := w.tick + 1 } := by
  have ht : (readInts w src).take n = readInts w src := List.take_of_length_le (by omega)
  simp only [copyInts, ht]
  rw [writeAt_full _ _ (by omega)]

theorem sortIntsInPlace_fresh (w : World) (a n : Nat) (h1 : (w.ints.getD a []).length = n) :
    sortIntsInPlace w (some ⟨a, 0, n⟩) =
      { w with ints := w.ints.set a (sortInts (w.ints.getD a [])), tick := w.tick + 1 } := by
  have hr : readInts w (some ⟨a, 0, n⟩) = w.ints.getD a [] := by
    subst h1
    exact window_full _ a
  simp only [sortIntsInPlace, hr]
  rw [writeAt_full _ _ (by rw [sortInts_length])]

theorem getD_mem_or_none {α : Type} (l : List (Option α)) (i : Nat) :
    l.getD i none = none ∨ l.getD i none ∈ l := by
  rw [List.getD_eq_getElem?_getD]
  by_cases h : i < l.length
  · right
    rw [List.getElem?_eq_getElem h]
    exact List.getElem_mem h
  · left
    rw [List.getElem?_eq_none (by omega)]
    rfl

/-- Every sub-array header of a well-formed batch is in bounds, also the nil
one read past the end. -/
theorem WF_getD (w : World) (b : BatchSlice) (hwf : WF w b) (i : Nat) :
    inBounds w.ints ((readRows w b).getD i none) := by
  rcases getD_mem_or_none (readRows w b) i with h | h
  · rw [h]
    trivial
  · exact hwf.2 _ h

theorem seqState_zero (w0 : World) (hdrs : List IntSlice) :
    seqState w0 hdrs 0 = (makeRows w0 hdrs.length).1 := by
  simp only [seqState, makeRows, List.take_zero, List.map_nil, List.append_nil, Nat.not_lt_zero,
    if_false, Nat.mul_zero, Nat.add_zero]
  congr 2
  apply List.ext_getElem?
  intro m
  by_cases hm : m < hdrs.length
  · simp [List.getElem?_range hm, hm]
  · simp [hm, List.getElem?_eq_none (l := List.range hdrs.length) (by simpa using hm)]

theorem seqState_rows_step (w0 : World) (hdrs : List IntSlice) (k : Nat) (hk : k < hdrs.length) :
    ((List.range hdrs.length).map fun i =>
        if i < k then some (Hdr.mk (w0.ints.length + i) 0 (lenOf (hdrs.getD i none)))
        else none).set k (some ⟨w0.ints.length + k, 0, lenOf (hdrs.getD k none)⟩) =
    (List.range hdrs.length).map fun i =>
        if i < k + 1 then some (Hdr.mk (w0.ints.length + i) 0 (lenOf (hdrs.getD i none)))
        else none := by
  apply List.ext_getElem?
  intro m
  simp only [List.getElem?_set, List.getElem?_map, List.length_map, List.length_range]
  by_cases hm : m < hdrs.length
  · simp only [List.getElem?_range hm, Option.map_some', hk, if_true]
    by_cases hkm : k = m
    · subst hkm
      simp
    · simp only [hkm, if_false]
      have : (m < k + 1) ↔ (m < k) := by omega
      simp [this]
  · have hkm : ¬ k = m := by omega
    simp [hkm, List.getElem?_eq_none (l := List.range hdrs.length) (by simpa using hm)]

/-- One loop iteration of `sortSequential` takes the closed form at `k` to the
closed form at `k + 1`. -/
theorem seqBody_seqState (w0 : World) (toSort : BatchSlice) (hwf : WF w0 toSort) (k : Nat)
    (hk : k < (readRows w0 toSort).length) :
    seqBody toSort (some ⟨w0.rows.length, 0, (readRows w0 toSort).length⟩)
      (seqState w0 (readRows w0 toSort) k) k
      = some (seqState w0 (readRows w0 toSort) (k + 1)) := by
  set hdrs := readRows w0 toSort with hh
  have hrows : readRows (seqState w0 hdrs k) toSort = hdrs :=
    readRows_append w0 _ _ toSort rfl hwf.1
  have hb : inBounds w0.ints (hdrs.getD k none) := WF_getD w0 toSort hwf k
  have hlen : (readInts w0 (hdrs.getD k none)).length = lenOf (hdrs.getD k none) :=
    readInts_length w0 _ hb
  have hil : (seqState w0 hdrs k).ints.length = w0.ints.length + k := by
    simp only [seqState, List.length_append, List.length_map, List.length_take]
    omega
  have hget : hdrs[k]? = some (hdrs.getD k none) := by
    rw [List.getD_eq_getElem?_getD, List.getElem?_eq_getElem hk]
    rfl
  simp only [seqBody, hrows, makeInts]
  rw [copyInts_fresh _ _ _ _ (by simp [List.getD_eq_getElem?_getD])
    (by rw [readInts_append w0 _ ((seqState w0 hdrs k).ints.drop w0.ints.length ++
        [List.replicate (lenOf (hdrs.getD k none)) 0]) _ (by simp [seqState]) hb]; exact hlen)]
  rw [sortIntsInPlace_fresh _ _ _ (by
    simp only [set_snoc_self, getD_snoc_self]
    rw [readInts_append w0 _ ((seqState w0 hdrs k).ints.drop w0.ints.length ++
        [List.replicate (lenOf (hdrs.getD k none)) 0]) _ (by simp [seqState]) hb]; exact hlen)]
  simp only [set_snoc_self, getD_snoc_self, storeRow, hk, if_true]
  rw [readInts_append w0 _ ((seqState w0 hdrs k).ints.drop w0.ints.length ++
        [List.replicate (lenOf (hdrs.getD k none)) 0]) _ (by simp [seqState]) hb]
  rw [hil]
  simp only [seqState, getD_snoc_self, set_snoc_self, Nat.zero_add, List.take_succ, hget,
    Option.toList, List.map_append, List.map_cons, List.map_nil, List.append_assoc]
  rw [seqState_rows_step w0 hdrs k hk]
  have ht : w0.tick + 1 + 4 * k + 1 + 1 + 1 + 1 = w0.tick + 1 + 4 * (k + 1) := by omega
  rw [ht]

/-- The loop of `sortSequential` never panics and reaches the closed form. -/
theorem seqLoop_eq (w0 : World) (toSort : BatchSlice) (hwf : WF w0 toSort) (k : Nat)
    (hk : k ≤ (readRows w0 toSort).length) :
    (List.range k).foldlM
      (seqBody toSort (some ⟨w0.rows.length, 0, (readRows w0 toSort).length⟩))
      (seqState w0 (readRows w0 toSort) 0)
      = some (seqState w0 (readRows w0 toSort) k) := by
  induction k with
  | zero => rfl
  | succ k ih =>
    rw [List.range_succ, List.foldlM_append, ih (by omega)]
    simp only [Option.bind_eq_bind, Option.some_bind, List.foldlM_cons, List.foldlM_nil]
    rw [seqBody_seqState w0 toSort hwf k (by omega)]
    rfl

/-- The function `sortSequential` in closed form: it returns, and the final heap is the
initial one extended by one sorted copy per sub-array and by the output array. -/
theorem sortSequential_eq (clk : Nat → Int) (w0 : World) (toSort : BatchSlice)
    (hwf : WF w0 toSort) :
    sortSequential clk w0 toSort =
      some (seqState w0 (readRows w0 toSort) (lenOf toSort),
        some ⟨w0.rows.length, 0, lenOf toSort⟩,
        clk (w0.tick + 1 + 4 * lenOf toSort) - clk w0.tick) := by
  have hl : (readRows w0 toSort).length = lenOf toSort := readRows_length w0 toSort hwf.1
  have h := seqLoop_eq w0 toSort hwf (lenOf toSort) (by omega)
  rw [seqState_zero, hl] at h
  have h2 : (makeRows w0 (lenOf toSort)).2 = some ⟨w0.rows.length, 0, lenOf toSort⟩ := rfl
  simp only [sortSequential, h2, h]
  rfl

/-! ## Preservation of the invariant -/

theorem sum_map_set {α : Type} (f : α → Nat) (l : List α) (j : Nat) (t t2 : α)
    (hj : l[j]? = some t) :
    ((l.set j t2).map f).sum + f t = (l.map f).sum + f t2 := by
  induction l generalizing j with
  | nil => simp at hj
  | cons x xs ih =>
    cases j with
    | zero =>
      simp only [List.getElem?_cons_zero, Option.some.injEq] at hj
      subst hj
      simp only [List.set_cons_zero, List.map_cons, List.sum_cons]
      omega
    | succ j =>
      simp only [List.getElem?_cons_succ] at hj
      have := ih j hj
      simp only [List.set_cons_succ, List.map_cons, List.sum_cons]
      omega

theorem prefix_set {α : Type} (p l : List α) (a : Nat) (v : α) (hp : p <+: l)
    (ha : p.length ≤ a) : p <+: l.set a v := by
  obtain ⟨e, rfl⟩ := hp
  rw [List.set_append_right _ _ ha]
  exact List.prefix_append _ _

theorem readInts_prefix (w0 w : World) (s : IntSlice) (hp : w0.ints <+: w.ints)
    (hb : inBounds w0.ints s) : readInts w s = readInts w0 s := by
  obtain ⟨e, he⟩ := hp
  exact readInts_append w0 w e s he.symm hb

theorem getD_set_ne {α : Type} (l : List α) (a b : Nat) (v d : α) (h : a ≠ b) :
    (l.set a v).getD b d = l.getD b d := by
  simp [List.getD_eq_getElem?_getD, List.getElem?_set, h]

theorem getD_set_self {α : Type} (l : List α) (a : Nat) (v d : α) (h : a < l.length) :
    (l.set a v).getD a d = v := by
  simp [List.getD_eq_getElem?_getD, List.getElem?_set, h]

/-- A goroutine's facts survive any change of the heap that leaves its own
array and its own output slot alone. -/
theorem TaskOk.unaffected {w0 : World} {hdrs : List IntSlice} {ints ints2 : List (List Int)}
    {out out2 : List IntSlice} {j : Nat} {t : Task}
    (h : TaskOk w0 hdrs ints out j t) (hlen : ints.length ≤ ints2.length)
    (hsame : 1 ≤ t.pc → ints2.getD (addrOf t.sorted) [] = ints.getD (addrOf t.sorted) [])
    (hout : out2[j]? = out[j]?) : TaskOk w0 hdrs ints2 out2 j t where
  index_eq := h.index_eq
  index_lt := h.index_lt
  input_eq := h.input_eq
  pc_le := h.pc_le
  hdr_eq := h.hdr_eq
  addr_ge := h.addr_ge
  addr_lt := fun hp => lt_of_lt_of_le (h.addr_lt hp) hlen
  zeroed := fun hp => by rw [hsame (by omega)]; exact h.zeroed hp
  copied := fun hp => by rw [hsame (by omega)]; exact h.copied hp
  sorted_eq := fun hp => by rw [hsame (by omega)]; exact h.sorted_eq hp
  unstored := fun hp => by rw [hout]; exact h.unstored hp
  stored := fun hp => by rw [hout]; exact h.stored hp

/-- The invariant is preserved when the `j`-th goroutine executes a statement
that touches only its own array and its own output slot. -/
theorem Inv.task_update {clk : Nat → Int} {w0 : World} {toSort : BatchSlice} {c : Config}
    (hinv : Inv clk w0 toSort c) {j : Nat} {t t2 : Task} (hj : c.tasks[j]? = some t)
    (w2 : World) (wg2 : Nat) (out2 : List IntSlice)
    (hrows : w2.rows = w0.rows ++ [out2])
    (hout_len : out2.length = (readRows w0 toSort).length)
    (hout : ∀ m, m ≠ j → out2[m]? = (outArr w0 c)[m]?)
    (hpre : w0.ints <+: w2.ints)
    (hlen : c.world.ints.length ≤ w2.ints.length)
    (hsame : ∀ a, a < c.world.ints.length → (1 ≤ t.pc → a ≠ addrOf t.sorted) →
      w2.ints.getD a [] = c.world.ints.getD a [])
    (htick : w2.tick = c.world.tick + 1)
    (hpc : t2.pc = t.pc + 1)
    (hnew : TaskOk w0 (readRows w0 toSort) w2.ints out2 j t2)
    (hfresh : t.pc = 0 → c.world.ints.length ≤ addrOf t2.sorted)
    (hkeep : 1 ≤ t.pc → t2.sorted = t.sorted)
    (hwg : wg2 + (if t.pc < 5 then 1 else 0) = c.wg + (if t2.pc < 5 then 1 else 0)) :
    Inv clk w0 toSort
      { world := w2, wg := wg2, main := c.main, tasks := c.tasks.set j t2 } := by
  have hjl : j < c.tasks.length := by
    by_contra hcon
    rw [List.getElem?_eq_none (by omega)] at hj
    cases hj
  have hoa : outArr w0 { world := w2, wg := wg2, main := c.main, tasks := c.tasks.set j t2 }
      = out2 := by
    simp only [outArr, hrows]
    exact getD_snoc_self _ _ _
  have hlive : live (c.tasks.set j t2) + (if t.pc < 5 then 1 else 0)
      = live c.tasks + (if t2.pc < 5 then 1 else 0) :=
    sum_map_set (fun t : Task => if t.pc < 5 then 1 else 0) c.tasks j t t2 hj
  have hsum : pcSum (c.tasks.set j t2) + t.pc = pcSum c.tasks + t2.pc :=
    sum_map_set (fun t : Task => t.pc) c.tasks j t t2 hj
  have hother : ∀ j2 t3, j2 ≠ j → c.tasks[j2]? = some t3 → 1 ≤ t3.pc →
      addrOf t2.sorted ≠ addrOf t3.sorted := by
    intro j2 t3 hne h3 hp3
    by_cases hp : 1 ≤ t.pc
    · rw [hkeep hp]
      exact hinv.distinct j j2 t t3 hj h3 (Ne.symm hne) hp hp3
    · have := hfresh (by omega)
      have := (hinv.tasks_ok j2 t3 h3).addr_lt hp3
      omega
  refine ⟨?_, ?_, hpre, ?_, ?_, ?_, ?_, ?_⟩
  · rw [hoa]
    exact hrows
  · rw [hoa]
    exact hout_len
  · simp only [progress]
    rw [htick, hinv.tick_eq]
    simp only [progress]
    omega
  · intro j2 t3 h3
    rw [hoa]
    simp only [List.getElem?_set] at h3
    by_cases hjj : j = j2
    · subst hjj
      simp only [if_true, hjl] at h3
      cases h3
      exact hnew
    · simp only [hjj, if_false] at h3
      have ht3 := hinv.tasks_ok j2 t3 h3
      refine ht3.unaffected hlen ?_ (hout j2 (Ne.symm hjj))
      intro hp3
      exact hsame _ (ht3.addr_lt hp3)
        (fun hp => (hinv.distinct j j2 t t3 hj h3 hjj hp hp3).symm)
  · intro j2 j3 t3 t4 h3 h4 hne hp3 hp4
    simp only [List.getElem?_set] at h3 h4
    by_cases hjj : j = j2
    · subst hjj
      simp only [if_true, hjl] at h3
      cases h3
      have hjj3 : ¬ j = j3 := hne
      simp only [hjj3, if_false] at h4
      exact hother j3 t4 (Ne.symm hne) h4 hp4
    · simp only [hjj, if_false] at h3
      by_cases hjj3 : j = j3
      · subst hjj3
        simp only [if_true, hjl] at h4
        cases h4
        exact (hother j2 t3 (Ne.symm hjj) h3 hp3).symm
      · simp only [hjj3, if_false] at h4
        exact hinv.distinct j2 j3 t3 t4 h3 h4 hne hp3 hp4
  · intro m hm hmn
    rw [hoa]
    simp only [List.length_set] at hm
    rw [hout m (by omega)]
    exact hinv.unspawned m hm hmn
  · have hm := hinv.main_ok
    simp only [MainOk, List.length_set] at hm ⊢
    split <;> rename_i heq <;> simp only [heq] at hm
    · exact ⟨hm.1, hm.2.1, by omega⟩
    · exact ⟨hm.1, hm.2.1, hm.2.2.1, by omega⟩
    · exact ⟨hm.1, by omega⟩
    · refine ⟨hm.1, ?_, ?_, hm.2.2.2⟩
      · have := hm.2.1
        have := hm.2.2.1
        split_ifs at hwg hlive <;> omega
      · have := hm.2.2.1
        split_ifs at hwg hlive <;> omega

/-- The statement a goroutine executes, by control point. -/
theorem stepTask_eq (out : BatchSlice) (c : Config) (j : Nat) (t : Task)
    (hj : c.tasks[j]? = some t) :
    stepTask out c j =
      if t.pc = 0 then
        some { c with
          world := (makeInts c.world (lenOf t.input)).1
          tasks := c.tasks.set j { t with sorted := (makeInts c.world (lenOf t.input)).2, pc := 1 } }
      else if t.pc = 1 then
        some { c with
          world := copyInts c.world t.sorted t.input
          tasks := c.tasks.set j { t with pc := 2 } }
      else if t.pc = 2 then
        some { c with
          world := sortIntsInPlace c.world t.sorted
          tasks := c.tasks.set j { t with pc := 3 } }
      else if t.pc = 3 then
        (storeRow c.world out t.index t.sorted).map fun w =>
          { c with world := w, tasks := c.tasks.set j { t with pc := 4 } }
      else if t.pc = 4 then
        if c.wg = 0 then none
        else some { c with
          world := tickW c.world
          wg := c.wg - 1
          tasks := c.tasks.set j { t with pc := 5 } }
      else none := by
  simp only [stepTask, hj]
  split
  · rename_i h; simp [h]
  · rename_i h; simp [h]
  · rename_i h; simp [h]
  · rename_i h
    cases hs : storeRow c.world out t.index t.sorted <;> simp [h]
  · rename_i h; simp [h]
  · rename_i h0 h1 h2 h3 h4
    rw [if_neg h0, if_neg h1, if_neg h2, if_neg h3, if_neg h4]

theorem outArr_tickW (w0 : World) (c : Config) (wg : Nat) (m : MainPc) (ts : List Task) :
    outArr w0 { world := tickW c.world, wg := wg, main := m, tasks := ts } = outArr w0 c := rfl

/-- A step of a goroutine preserves the invariant. -/
theorem stepTask_inv {clk : Nat → Int} {w0 : World} {toSort : BatchSlice} {c c2 : Config}
    (hwf : WF w0 toSort) (hinv : Inv clk w0 toSort c) (j : Nat)
    (hstep : stepTask (some ⟨w0.rows.length, 0, (readRows w0 toSort).length⟩) c j = some c2) :
    Inv clk w0 toSort c2 := by
  cases hj : c.tasks[j]? with
  | none => simp [stepTask, hj] at hstep
  | some t =>
    have hok := hinv.tasks_ok j t hj
    have hin : inBounds w0.ints t.input := by
      rw [hok.input_eq]
      exact WF_getD w0 toSort hwf j
    have hrd : readInts c.world t.input = readInts w0 t.input :=
      readInts_prefix w0 c.world _ hinv.ints_pre hin
    have hrl : (readInts w0 t.input).length = lenOf t.input := readInts_length w0 _ hin
    rw [stepTask_eq _ c j t hj] at hstep
    split_ifs at hstep with h0 h1 h2 h3 h4 hwg
    · -- `sorted := make([]int, len(input))`
      cases hstep
      refine hinv.task_update hj _ c.wg (outArr w0 c) hinv.rows_eq hinv.out_len (fun _ _ => rfl)
        (hinv.ints_pre.trans (List.prefix_append _ _)) (by simp [makeInts])
        (fun a ha _ => List.getD_append _ _ _ _ ha) rfl (by simp [h0]) ?_
        (fun _ => le_of_eq rfl) (fun hp => by omega) (by simp [h0])
      exact {
        index_eq := hok.index_eq
        index_lt := hok.index_lt
        input_eq := hok.input_eq
        pc_le := by simp
        hdr_eq := fun _ => rfl
        addr_ge := fun _ => hinv.ints_pre.length_le
        addr_lt := fun _ => by simp [makeInts, addrOf]
        zeroed := fun _ => getD_snoc_self _ _ _
        copied := fun hp => by simp at hp
        sorted_eq := fun hp => by simp at hp
        unstored := fun _ => hok.unstored (by omega)
        stored := fun hp => by simp at hp }
    · -- `copy(sorted, input)`
      have hs := hok.hdr_eq (by omega)
      have hz : (c.world.ints.getD (addrOf t.sorted) []).length = lenOf t.input := by
        rw [hok.zeroed h1, List.length_replicate]
      rw [hs, copyInts_fresh _ _ _ _ hz (by rw [hrd, hrl]), hrd, ← hs] at hstep
      cases hstep
      refine hinv.task_update hj _ c.wg (outArr w0 c) hinv.rows_eq hinv.out_len (fun _ _ => rfl)
        (prefix_set _ _ _ _ hinv.ints_pre (hok.addr_ge (by omega))) (by simp)
        (fun a _ hne => getD_set_ne _ _ _ _ _ (Ne.symm (hne (by omega)))) rfl (by simp [h1]) ?_
        (fun hp => by omega) (fun _ => rfl) (by simp [h1])
      exact {
        index_eq := hok.index_eq
        index_lt := hok.index_lt
        input_eq := hok.input_eq
        pc_le := by simp
        hdr_eq := fun _ => hs
        addr_ge := fun _ => hok.addr_ge (by omega)
        addr_lt := fun _ => by simpa using hok.addr_lt (by omega)
        zeroed := fun hp => by simp at hp
        copied := fun _ => getD_set_self _ _ _ _ (hok.addr_lt (by omega))
        sorted_eq := fun hp => by simp at hp
        unstored := fun _ => hok.unstored (by omega)
        stored := fun hp => by simp at hp }
    · -- `sort.Ints(sorted)`
      have hs := hok.hdr_eq (by omega)
      have hz : (c.world.ints.getD (addrOf t.sorted) []).length = lenOf t.input := by
        rw [hok.copied h2, hrl]
      rw [hs, sortIntsInPlace_fresh _ _ _ hz, hok.copied h2, ← hs] at hstep
      cases hstep
      refine hinv.task_update hj _ c.wg (outArr w0 c) hinv.rows_eq hinv.out_len (fun _ _ => rfl)
        (prefix_set _ _ _ _ hinv.ints_pre (hok.addr_ge (by omega))) (by simp)
        (fun a _ hne => getD_set_ne _ _ _ _ _ (Ne.symm (hne (by omega)))) rfl (by simp [h2]) ?_
        (fun hp => by omega) (fun _ => rfl) (by simp [h2])
      exact {
        index_eq := hok.index_eq
        index_lt := hok.index_lt
        input_eq := hok.input_eq
        pc_le := by simp
        hdr_eq := fun _ => hs
        addr_ge := fun _ => hok.addr_ge (by omega)
        addr_lt := fun _ => by simpa using hok.addr_lt (by omega)
        zeroed := fun hp => by simp at hp
        copied := fun hp => by simp at hp
        sorted_eq := fun _ => getD_set_self _ _ _ _ (hok.addr_lt (by omega))
        unstored := fun _ => hok.unstored (by omega)
        stored := fun hp => by simp at hp }
    · -- `sortedArrays[index] = sorted`
      have hlt : t.index < (readRows w0 toSort).length := by
        rw [hok.index_eq]
        exact hok.index_lt
      have hjo : j < (outArr w0 c).length := by
        rw [hinv.out_len]
        exact hok.index_lt
      simp only [storeRow, hlt, if_true, Option.map_some', Option.some.injEq] at hstep
      subst hstep
      refine hinv.task_update hj _ c.wg ((outArr w0 c).set j t.sorted) ?_
        (by rw [List.length_set]; exact hinv.out_len)
        (fun m hm => by simp [List.getElem?_set, Ne.symm hm])
        hinv.ints_pre (le_of_eq rfl) (fun _ _ _ => rfl) rfl (by simp [h3]) ?_
        (fun hp => by omega) (fun _ => rfl) (by simp [h3])
      · show c.world.rows.set w0.rows.length
          ((c.world.rows.getD w0.rows.length []).set (0 + t.index) t.sorted) = _
        rw [hok.index_eq, Nat.zero_add]
        conv_lhs => rw [hinv.rows_eq]
        rw [getD_snoc_self, set_snoc_self]
      · exact {
          index_eq := hok.index_eq
          index_lt := hok.index_lt
          input_eq := hok.input_eq
          pc_le := by simp
          hdr_eq := fun _ => hok.hdr_eq (by omega)
          addr_ge := fun _ => hok.addr_ge (by omega)
          addr_lt := fun _ => hok.addr_lt (by omega)
          zeroed := fun hp => by simp at hp
          copied := fun hp => by simp at hp
          sorted_eq := fun _ => hok.sorted_eq (by omega)
          unstored := fun hp => by simp at hp
          stored := fun _ => by simp [List.getElem?_set, hjo] }
    · -- the deferred `wg.Done()`
      cases hstep
      refine hinv.task_update hj _ (c.wg - 1) (outArr w0 c) hinv.rows_eq hinv.out_len
        (fun _ _ => rfl) hinv.ints_pre (le_of_eq rfl) (fun _ _ _ => rfl) rfl (by simp [h4]) ?_
        (fun hp => by omega) (fun _ => rfl) (by simp [h4]; omega)
      exact {
        index_eq := hok.index_eq
        index_lt := hok.index_lt
        input_eq := hok.input_eq
        pc_le := by simp
        hdr_eq := fun _ => hok.hdr_eq (by omega)
        addr_ge := fun _ => hok.addr_ge (by omega)
        addr_lt := fun _ => hok.addr_lt (by omega)
        zeroed := fun hp => by simp at hp
        copied := fun hp => by simp at hp
        sorted_eq := fun _ => hok.sorted_eq (by omega)
        unstored := fun hp => by simp at hp
        stored := fun _ => hok.stored (by omega) }

theorem pcSum_of_live_zero (ts : List Task) (hle : ∀ t ∈ ts, t.pc ≤ 5) (hl : live ts = 0) :
    pcSum ts = 5 * ts.length ∧ ∀ t ∈ ts, t.pc = 5 := by
  induction ts with
  | nil => exact ⟨rfl, fun _ h => by cases h⟩
  | cons t ts ih =>
    simp only [live, List.map_cons, List.sum_cons] at hl
    have h5 := hle t (List.mem_cons_self _ _)
    have ht : t.pc = 5 := by
      by_contra hne
      rw [if_pos (by omega)] at hl
      omega
    have hrest : live ts = 0 := by
      simp only [live]
      omega
    obtain ⟨h1, h2⟩ := ih (fun u hu => hle u (List.mem_cons_of_mem _ hu)) hrest
    refine ⟨?_, ?_⟩
    · simp only [pcSum, List.map_cons, List.sum_cons, List.length_cons] at h1 ⊢
      omega
    · intro u hu
      rcases List.mem_cons.1 hu with rfl | hu
      · exact ht
      · exact h2 u hu

theorem Inv.pc_le {clk : Nat → Int} {w0 : World} {toSort : BatchSlice} {c : Config}
    (hinv : Inv clk w0 toSort c) : ∀ t ∈ c.tasks, t.pc ≤ 5 := by
  intro t ht
  obtain ⟨j, hj⟩ := List.mem_iff_getElem?.1 ht
  exact (hinv.tasks_ok j t hj).pc_le

/-- A step of the main goroutine preserves the invariant. -/
theorem stepMain_inv {clk : Nat → Int} {w0 : World} {toSort : BatchSlice} {c c2 : Config}
    (hwf : WF w0 toSort) (hinv : Inv clk w0 toSort c)
    (hstep : stepMain clk (clk w0.tick) toSort c = some c2) : Inv clk w0 toSort c2 := by
  have hm := hinv.main_ok
  have htick := hinv.tick_eq
  unfold stepMain at hstep
  unfold MainOk at hm
  split at hstep
  · -- head of the loop
    rename_i i hi
    rw [hi] at hm
    simp only [progress, hi, mainProgress] at htick
    split_ifs at hstep with hlt
    · cases hstep
      exact {
        rows_eq := hinv.rows_eq
        out_len := hinv.out_len
        ints_pre := hinv.ints_pre
        tick_eq := by
          simp only [progress, mainProgress, tickW, htick]
          omega
        tasks_ok := hinv.tasks_ok
        distinct := hinv.distinct
        unspawned := hinv.unspawned
        main_ok := by
          simp only [MainOk]
          refine ⟨hm.1, ?_, ?_, by omega⟩
          · rw [readRows_length w0 toSort hwf.1]
            exact hlt
          · rw [readRows_append w0 c.world _ toSort hinv.rows_eq hwf.1] }
    · cases hstep
      have hn : i = (readRows w0 toSort).length := by
        have := readRows_length w0 toSort hwf.1
        omega
      exact {
        rows_eq := hinv.rows_eq
        out_len := hinv.out_len
        ints_pre := hinv.ints_pre
        tick_eq := by
          simp only [progress, mainProgress, tickW, htick]
          omega
        tasks_ok := hinv.tasks_ok
        distinct := hinv.distinct
        unspawned := hinv.unspawned
        main_ok := by
          simp only [MainOk]
          exact ⟨by omega, hm.2.2⟩ }
  · -- the `go` statement
    rename_i i arr hi
    rw [hi] at hm
    simp only [progress, hi, mainProgress] at htick
    cases hstep
    have hget : ∀ (j : Nat) (t : Task),
        (c.tasks ++ [{ index := i, input := arr, sorted := none, pc := 0 }])[j]? = some t →
        c.tasks[j]? = some t ∨
          (j = i ∧ t = { index := i, input := arr, sorted := none, pc := 0 }) := by
      intro j t h
      by_cases hj : j < c.tasks.length
      · rw [List.getElem?_append_left hj] at h
        exact Or.inl h
      · rw [List.getElem?_append_right (by omega)] at h
        have h0 : j - c.tasks.length = 0 := by
          by_contra hne
          rw [List.getElem?_eq_none (by simp; omega)] at h
          cases h
        rw [h0] at h
        simp only [List.getElem?_cons_zero, Option.some.injEq] at h
        exact Or.inr ⟨by omega, h.symm⟩
    exact {
      rows_eq := hinv.rows_eq
      out_len := hinv.out_len
      ints_pre := hinv.ints_pre
      tick_eq := by
        simp only [progress, mainProgress, tickW, htick, pcSum, List.map_append, List.sum_append,
          List.map_cons, List.map_nil, List.sum_cons, List.sum_nil]
        omega
      tasks_ok := by
        intro j t h
        rcases hget j t h with h | ⟨rfl, rfl⟩
        · exact hinv.tasks_ok j t h
        · exact {
            index_eq := rfl
            index_lt := hm.2.1
            input_eq := hm.2.2.1
            pc_le := by simp
            hdr_eq := fun hp => by simp at hp
            addr_ge := fun hp => by simp at hp
            addr_lt := fun hp => by simp at hp
            zeroed := fun hp => by simp at hp
            copied := fun hp => by simp at hp
            sorted_eq := fun hp => by simp at hp
            unstored := fun _ => hinv.unspawned j (by omega) hm.2.1
            stored := fun hp => by simp at hp }
      distinct := by
        intro j j2 t t2 h h2 hne hp hp2
        rcases hget j t h with h | ⟨_, rfl⟩
        · rcases hget j2 t2 h2 with h2 | ⟨_, rfl⟩
          · exact hinv.distinct j j2 t t2 h h2 hne hp hp2
          · simp at hp2
        · simp at hp
      unspawned := by
        intro j hj hjn
        simp only [List.length_append, List.length_singleton] at hj
        exact hinv.unspawned j (by omega) hjn
      main_ok := by
        simp only [MainOk, live, List.length_append, List.length_singleton, List.map_append,
          List.sum_append, List.map_cons, List.map_nil, List.sum_cons, List.sum_nil]
        simp only [live] at hm
        refine ⟨by omega, by omega, ?_⟩
        simp only [Nat.lt_add_one, Nat.ofNat_pos, if_true]
        omega }
  · -- `wg.Wait()` and `time.Since(start)`
    rename_i hi
    rw [hi] at hm
    simp only [progress, hi, mainProgress] at htick
    split_ifs at hstep with hwg
    cases hstep
    have hl : live c.tasks = 0 := by omega
    have hs := (pcSum_of_live_zero c.tasks hinv.pc_le hl).1
    exact {
      rows_eq := hinv.rows_eq
      out_len := hinv.out_len
      ints_pre := hinv.ints_pre
      tick_eq := by
        simp only [progress, mainProgress, tickW, htick]
        omega
      tasks_ok := hinv.tasks_ok
      distinct := hinv.distinct
      unspawned := hinv.unspawned
      main_ok := by
        simp only [MainOk]
        refine ⟨hm.1, hwg, hl, ?_⟩
        rw [htick, hs, hm.1]
        congr 2
        omega }
  · cases hstep

/-- Every step preserves the invariant. -/
theorem step_inv {clk : Nat → Int} {w0 : World} {toSort : BatchSlice} {c c2 : Config}
    (hwf : WF w0 toSort) (hinv : Inv clk w0 toSort c) (a : Actor)
    (hstep : step clk (clk w0.tick) toSort
      (some ⟨w0.rows.length, 0, (readRows w0 toSort).length⟩) c a = some c2) :
    Inv clk w0 toSort c2 := by
  cases a with
  | main => exact stepMain_inv hwf hinv hstep
  | task j => exact stepTask_inv hwf hinv j hstep

/-- The invariant holds when the main goroutine enters the loop. -/
theorem init_inv (clk : Nat → Int) (w0 : World) (toSort : BatchSlice) :
    Inv clk w0 toSort (initConfig (makeRows w0 (readRows w0 toSort).length).1) := by
  have hoa : outArr w0 (initConfig (makeRows w0 (readRows w0 toSort).length).1)
      = List.replicate (readRows w0 toSort).length none := by
    simp only [outArr, initConfig, makeRows]
    exact getD_snoc_self _ _ _
  exact {
    rows_eq := by rw [hoa]; rfl
    out_len := by rw [hoa, List.length_replicate]
    ints_pre := List.prefix_refl _
    tick_eq := by simp [initConfig, makeRows, progress, mainProgress, pcSum]
    tasks_ok := fun j t h => by simp [initConfig] at h
    distinct := fun j j2 t t2 h => by simp [initConfig] at h
    unspawned := fun j _ hj => by rw [hoa]; simp [hj]
    main_ok := by simp [MainOk, initConfig, live] }

/-- The invariant holds in every configuration a schedule leads to. -/
theorem run_inv {clk : Nat → Int} {w0 : World} {toSort : BatchSlice} (hwf : WF w0 toSort)
    (sched : List Actor) : ∀ {c c2 : Config}, Inv clk w0 toSort c →
    run clk (clk w0.tick) toSort (some ⟨w0.rows.length, 0, (readRows w0 toSort).length⟩)
      c sched = some c2 → Inv clk w0 toSort c2 := by
  induction sched with
  | nil =>
    intro c c2 hinv h
    simp only [run, List.foldlM_nil] at h
    cases h
    exact hinv
  | cons a rest ih =>
    intro c c2 hinv h
    simp only [run, List.foldlM_cons] at h
    cases hs : step clk (clk w0.tick) toSort
        (some ⟨w0.rows.length, 0, (readRows w0 toSort).length⟩) c a with
    | none => simp [hs] at h
    | some c1 =>
      rw [hs] at h
      exact ih (step_inv hwf hinv a hs) h

/-! ## What the invariant gives when `sortConcurrent` returns -/

/-- Once the main goroutine is past `wg.Wait()`, every goroutine has finished. -/
theorem Inv.all_done {clk : Nat → Int} {w0 : World} {toSort : BatchSlice} {c : Config}
    (hinv : Inv clk w0 toSort c) {e : Int} (hret : c.main = .returned e) :
    c.tasks.length = (readRows w0 toSort).length ∧ (∀ t ∈ c.tasks, t.pc = 5) ∧
      e = clk (w0.tick + 7 * (readRows w0 toSort).length + 2) - clk w0.tick := by
  have hm := hinv.main_ok
  simp only [MainOk, hret] at hm
  exact ⟨hm.1, (pcSum_of_live_zero c.tasks hinv.pc_le hm.2.2.1).2, hm.2.2.2⟩

/-- Once the main goroutine is past `wg.Wait()`, slot `m` of the output array
holds a non-nil slice whose elements are the sorted elements of `toSort[m]`. -/
theorem Inv.slot_done {clk : Nat → Int} {w0 : World} {toSort : BatchSlice} {c : Config}
    (hwf : WF w0 toSort) (hinv : Inv clk w0 toSort c) {e : Int} (hret : c.main = .returned e)
    (m : Nat) (hm : m < (readRows w0 toSort).length) :
    ∃ h : Hdr, (outArr w0 c)[m]? = some (some h) ∧ w0.ints.length ≤ h.addr ∧
      inBounds c.world.ints (some h) ∧
      readInts c.world (some h) = sortInts (readInts w0 ((readRows w0 toSort).getD m none)) := by
  obtain ⟨hlen, hpc, _⟩ := hinv.all_done hret
  have hmt : m < c.tasks.length := by omega
  have hget : c.tasks[m]? = some (c.tasks[m]) := List.getElem?_eq_getElem hmt
  have hok := hinv.tasks_ok m _ hget
  have h5 : (c.tasks[m]).pc = 5 := hpc _ (List.getElem_mem hmt)
  have hs := hok.hdr_eq (by omega)
  have hin : inBounds w0.ints (c.tasks[m]).input := by
    rw [hok.input_eq]
    exact WF_getD w0 toSort hwf m
  have hl : (sortInts (readInts w0 (c.tasks[m]).input)).length = lenOf (c.tasks[m]).input := by
    rw [sortInts_length, readInts_length w0 _ hin]
  refine ⟨⟨addrOf (c.tasks[m]).sorted, 0, lenOf (c.tasks[m]).input⟩, ?_, hok.addr_ge (by omega),
    ?_, ?_⟩
  · rw [← hs]
    exact hok.stored (by omega)
  · simp only [inBounds]
    rw [hok.sorted_eq (by omega), hl]
    exact ⟨hok.addr_lt (by omega), by omega⟩
  · simp only [readInts]
    rw [hok.sorted_eq (by omega), ← hok.input_eq]
    rw [← hl]
    exact window_full _ _

/-- Unfolding of `sortConcurrent`: a result comes from a configuration in which
the main goroutine has returned and the invariant holds. -/
theorem sortConcurrent_some {clk : Nat → Int} {sched : List Actor} {w0 : World}
    {toSort : BatchSlice} (hwf : WF w0 toSort) {r : World × BatchSlice × Int}
    (h : sortConcurrent clk sched w0 toSort = some r) :
    ∃ c : Config, Inv clk w0 toSort c ∧ c.main = .returned r.2.2 ∧ c.world = r.1 ∧
      r.2.1 = some ⟨w0.rows.length, 0, (readRows w0 toSort).length⟩ ∧
      run clk (clk w0.tick) toSort (some ⟨w0.rows.length, 0, (readRows w0 toSort).length⟩)
        (initConfig (makeRows w0 (readRows w0 toSort).length).1) sched = some c := by
  have hl : (readRows w0 toSort).length = lenOf toSort := readRows_length w0 toSort hwf.1
  have h2 : (makeRows w0 (lenOf toSort)).2 = some ⟨w0.rows.length, 0, lenOf toSort⟩ := rfl
  simp only [sortConcurrent, h2] at h
  rw [← hl] at h
  cases hr : run clk (clk w0.tick) toSort
      (some ⟨w0.rows.length, 0, (readRows w0 toSort).length⟩)
      (initConfig (makeRows w0 (readRows w0 toSort).length).1) sched with
  | none => simp [hr] at h
  | some c =>
    simp only [hr] at h
    have hinv := run_inv hwf sched (init_inv clk w0 toSort) hr
    split at h
    · rename_i e he
      cases h
      exact ⟨c, hinv, he, rfl, rfl, rfl⟩
    · cases h

/-! ## No panic, no deadlock, termination -/

theorem live_pos_of_mem (ts : List Task) (j : Nat) (t : Task) (hj : ts[j]? = some t)
    (hp : t.pc < 5) : 1 ≤ live ts := by
  induction ts generalizing j with
  | nil => simp at hj
  | cons x xs ih =>
    simp only [live, List.map_cons, List.sum_cons]
    cases j with
    | zero =>
      simp only [List.getElem?_cons_zero, Option.some.injEq] at hj
      subst hj
      rw [if_pos hp]
      omega
    | succ j =>
      simp only [List.getElem?_cons_succ] at hj
      have := ih j hj
      simp only [live] at this
      omega

theorem exists_live (ts : List Task) (h : live ts ≠ 0) :
    ∃ (j : Nat) (t : Task), ts[j]? = some t ∧ t.pc < 5 := by
  induction ts with
  | nil => simp [live] at h
  | cons x xs ih =>
    by_cases hx : x.pc < 5
    · exact ⟨0, x, by simp, hx⟩
    · have hl : live xs ≠ 0 := by
        simp only [live, List.map_cons, List.sum_cons, if_neg hx] at h
        simp only [live]
        omega
      obtain ⟨j, t, hj, hp⟩ := ih hl
      exact ⟨j + 1, t, by simpa using hj, hp⟩

/-- In a reachable configuration an actor that can run executes its statement
without a panic, and an actor that cannot run has no step. -/
theorem step_isSome_iff {clk : Nat → Int} {w0 : World} {toSort : BatchSlice} {c : Config}
    (hinv : Inv clk w0 toSort c) (a : Actor) :
    (step clk (clk w0.tick) toSort
      (some ⟨w0.rows.length, 0, (readRows w0 toSort).length⟩) c a).isSome = canRun c a := by
  cases a with
  | main =>
    cases hmain : c.main with
    | loop i => by_cases h : i < lenOf toSort <;> simp [step, stepMain, canRun, hmain, h]
    | added i arr => simp [step, stepMain, canRun, hmain]
    | wait => by_cases h : c.wg = 0 <;> simp [step, stepMain, canRun, hmain, h]
    | returned e => simp [step, stepMain, canRun, hmain]
  | task j =>
    simp only [step, canRun]
    cases hj : c.tasks[j]? with
    | none => simp [stepTask, hj]
    | some t =>
      have hok := hinv.tasks_ok j t hj
      rw [stepTask_eq _ c j t hj]
      split_ifs with h0 h1 h2 h3 h4 hwg
      · simp [h0]
      · simp [h1]
      · simp [h2]
      · have hlt : t.index < (readRows w0 toSort).length := by
          rw [hok.index_eq]
          exact hok.index_lt
        simp [storeRow, hlt, h3]
      · exfalso
        have hl := live_pos_of_mem c.tasks j t hj (by omega)
        have hm := hinv.main_ok
        unfold MainOk at hm
        split at hm <;> omega
      · simp [h4]
      · have := hok.pc_le
        have h5 : t.pc = 5 := by omega
        simp [h5]

/-- No deadlock: as long as the main goroutine has not returned, some actor can run. -/
theorem exists_canRun {clk : Nat → Int} {w0 : World} {toSort : BatchSlice} {c : Config}
    (hinv : Inv clk w0 toSort c) (hnot : ∀ e, c.main ≠ .returned e) :
    ∃ a, canRun c a = true := by
  have hm := hinv.main_ok
  unfold MainOk at hm
  split at hm
  · rename_i i hi
    exact ⟨.main, by simp [canRun, hi]⟩
  · rename_i i arr hi
    exact ⟨.main, by simp [canRun, hi]⟩
  · rename_i hi
    by_cases hwg : c.wg = 0
    · exact ⟨.main, by simp [canRun, hi, hwg]⟩
    · obtain ⟨j, t, hj, hp⟩ := exists_live c.tasks (by omega)
      exact ⟨.task j, by simp [canRun, hj, hp]⟩
  · rename_i e hi
    exact absurd hi (hnot e)

theorem pcSum_le (ts : List Task) (hle : ∀ t ∈ ts, t.pc ≤ 5) : pcSum ts ≤ 5 * ts.length := by
  induction ts with
  | nil => simp [pcSum]
  | cons t ts ih =>
    have h1 := hle t (List.mem_cons_self _ _)
    have h2 := ih (fun u hu => hle u (List.mem_cons_of_mem _ hu))
    simp only [pcSum, List.map_cons, List.sum_cons, List.length_cons] at h2 ⊢
    omega

/-- The number of statements executed is at most `7 * n + 2`, and it is less
unless the main goroutine has returned. -/
theorem Inv.progress_le {clk : Nat → Int} {w0 : World} {toSort : BatchSlice} {c : Config}
    (hinv : Inv clk w0 toSort c) :
    progress (readRows w0 toSort).length c ≤ 7 * (readRows w0 toSort).length + 2 ∧
      ((∀ e, c.main ≠ .returned e) →
        progress (readRows w0 toSort).length c < 7 * (readRows w0 toSort).length + 2) := by
  have hm := hinv.main_ok
  have hp := pcSum_le c.tasks hinv.pc_le
  unfold MainOk at hm
  simp only [progress]
  split at hm <;> rename_i hi
  · simp only [hi, mainProgress]
    exact ⟨by omega, fun _ => by omega⟩
  · simp only [hi, mainProgress]
    exact ⟨by omega, fun _ => by omega⟩
  · simp only [hi, mainProgress]
    exact ⟨by omega, fun _ => by omega⟩
  · simp only [hi, mainProgress]
    exact ⟨by omega, fun h => absurd rfl (h _)⟩

/-- Every step is one statement. -/
theorem step_progress {clk : Nat → Int} {w0 : World} {toSort : BatchSlice} {c c2 : Config}
    (hwf : WF w0 toSort) (hinv : Inv clk w0 toSort c) (a : Actor)
    (hstep : step clk (clk w0.tick) toSort
      (some ⟨w0.rows.length, 0, (readRows w0 toSort).length⟩) c a = some c2) :
    progress (readRows w0 toSort).length c2 = progress (readRows w0 toSort).length c + 1 ∧
      c2.world.tick = c.world.tick + 1 := by
  have h2 := (step_inv hwf hinv a hstep).tick_eq
  have h1 := hinv.tick_eq
  have ht : c2.world.tick = c.world.tick + 1 := by
    cases a with
    | main =>
      simp only [step, stepMain] at hstep
      split at hstep
      · split_ifs at hstep <;> cases hstep <;> rfl
      · cases hstep; rfl
      · split_ifs at hstep; cases hstep; rfl
      · cases hstep
    | task j =>
      simp only [step] at hstep
      cases hj : c.tasks[j]? with
      | none => simp [stepTask, hj] at hstep
      | some t =>
        rw [stepTask_eq _ c j t hj] at hstep
        split_ifs at hstep
        · cases hstep; rfl
        · cases hstep
          cases t.sorted <;> rfl
        · cases hstep
          cases t.sorted <;> rfl
        · simp only [storeRow] at hstep
          split_ifs at hstep
          · simp only [Option.map_some', Option.some.injEq] at hstep
            subst hstep
            rfl
          · cases hstep
        · cases hstep; rfl
  exact ⟨by omega, ht⟩

/-- A schedule of `k` steps executes `k` statements. -/
theorem run_progress {clk : Nat → Int} {w0 : World} {toSort : BatchSlice} (hwf : WF w0 toSort)
    (sched : List Actor) : ∀ {c c2 : Config}, Inv clk w0 toSort c →
    run clk (clk w0.tick) toSort (some ⟨w0.rows.length, 0, (readRows w0 toSort).length⟩)
      c sched = some c2 →
    progress (readRows w0 toSort).length c2
      = progress (readRows w0 toSort).length c + sched.length := by
  induction sched with
  | nil =>
    intro c c2 _ h
    simp only [run, List.foldlM_nil] at h
    cases h
    rfl
  | cons a rest ih =>
    intro c c2 hinv h
    simp only [run, List.foldlM_cons] at h
    cases hs : step clk (clk w0.tick) toSort
        (some ⟨w0.rows.length, 0, (readRows w0 toSort).length⟩) c a with
    | none => simp [hs] at h
    | some c1 =>
      rw [hs] at h
      have h1 := ih (step_inv hwf hinv a hs) h
      have h2 := (step_progress hwf hinv a hs).1
      simp only [List.length_cons]
      omega

/-- From every reachable configuration the execution can be completed: some
continuation of the schedule makes the main goroutine return. -/
theorem exists_completion {clk : Nat → Int} {w0 : World} {toSort : BatchSlice}
    (hwf : WF w0 toSort) (k : Nat) : ∀ {c : Config}, Inv clk w0 toSort c →
    7 * (readRows w0 toSort).length + 2 - progress (readRows w0 toSort).length c ≤ k →
    ∃ (rest : List Actor) (c2 : Config) (e : Int),
      run clk (clk w0.tick) toSort (some ⟨w0.rows.length, 0, (readRows w0 toSort).length⟩)
        c rest = some c2 ∧ c2.main = .returned e := by
  induction k with
  | zero =>
    intro c hinv hk
    have hp := hinv.progress_le
    by_cases hret : ∀ e, c.main ≠ .returned e
    · have := hp.2 hret
      omega
    · push_neg at hret
      obtain ⟨e, he⟩ := hret
      exact ⟨[], c, e, rfl, he⟩
  | succ k ih =>
    intro c hinv hk
    by_cases hret : ∀ e, c.main ≠ .returned e
    · obtain ⟨a, ha⟩ := exists_canRun hinv hret
      have hsome := step_isSome_iff hinv a
      rw [ha] at hsome
      obtain ⟨c1, hc1⟩ := Option.isSome_iff_exists.1 hsome
      have hinv1 := step_inv hwf hinv a hc1
      have hpr := (step_progress hwf hinv a hc1).1
      obtain ⟨rest, c2, e, hrun, he⟩ := ih hinv1 (by omega)
      refine ⟨a :: rest, c2, e, ?_, he⟩
      simp only [run, List.foldlM_cons, hc1]
      exact hrun
    · push_neg at hret
      obtain ⟨e, he⟩ := hret
      exact ⟨[], c, e, rfl, he⟩

/-! ## The postcondition of the two sorters -/

theorem seqState_ints_getD (w0 : World) (hdrs : List IntSlice) (n : Nat) (hn : hdrs.length = n)
    (m : Nat) (hm : m < n) :
    (seqState w0 hdrs n).ints.getD (w0.ints.length + m) []
      = sortInts (readInts w0 (hdrs.getD m none)) := by
  subst hn
  simp only [seqState, List.take_length]
  rw [List.getD_append_right _ _ _ _ (by omega)]
  simp only [Nat.add_sub_cancel_left, List.getD_eq_getElem?_getD, List.getElem?_map,
    List.getElem?_eq_getElem hm, Option.map_some', Option.getD_some]

theorem seqState_out (w0 : World) (hdrs : List IntSlice) (n : Nat) (hn : hdrs.length = n) :
    (seqState w0 hdrs n).rows = w0.rows ++ [(List.range n).map fun i =>
          some (Hdr.mk (w0.ints.length + i) 0 (lenOf (hdrs.getD i none)))] ∧
    readRows (seqState w0 hdrs n) (some ⟨w0.rows.length, 0, n⟩)
      = (List.range n).map fun i =>
          some (Hdr.mk (w0.ints.length + i) 0 (lenOf (hdrs.getD i none))) := by
  subst hn
  have h2 : ((List.range hdrs.length).map fun i =>
      if i < hdrs.length then some (Hdr.mk (w0.ints.length + i) 0 (lenOf (hdrs.getD i none)))
      else none) = (List.range hdrs.length).map fun i =>
          some (Hdr.mk (w0.ints.length + i) 0 (lenOf (hdrs.getD i none))) := by
    apply List.map_congr_left
    intro i hi
    rw [if_pos (List.mem_range.1 hi)]
  have h1 : (seqState w0 hdrs hdrs.length).rows = w0.rows ++ [(List.range hdrs.length).map fun i =>
          some (Hdr.mk (w0.ints.length + i) 0 (lenOf (hdrs.getD i none)))] := by
    simp only [seqState, h2]
  refine ⟨h1, ?_⟩
  simp only [readRows, h1, getD_snoc_self]
  have := window_full ((List.range hdrs.length).map fun i =>
          some (Hdr.mk (w0.ints.length + i) 0 (lenOf (hdrs.getD i none)))) w0.rows.length
  simpa using this

/-- The function `sortSequential` returns and establishes the postcondition. -/
theorem sortSequential_post (clk : Nat → Int) (w0 : World) (toSort : BatchSlice)
    (hwf : WF w0 toSort) :
    ∃ w1 out, sortSequential clk w0 toSort
        = some (w1, out, clk (w0.tick + 1 + 4 * lenOf toSort) - clk w0.tick) ∧
      w1.tick = w0.tick + 1 + 4 * lenOf toSort ∧ Post w0 toSort w1 out := by
  have hl : (readRows w0 toSort).length = lenOf toSort := readRows_length w0 toSort hwf.1
  refine ⟨_, _, sortSequential_eq clk w0 toSort hwf, rfl, ?_⟩
  obtain ⟨hrows, hout⟩ := seqState_out w0 (readRows w0 toSort) (lenOf toSort) hl
  exact {
    out_eq := rfl
    ints_pre := List.prefix_append _ _
    rows_eq := by rw [hout, hrows]
    out_len := by rw [hout]; simp
    slot := by
      intro m hm
      have hb : inBounds w0.ints ((readRows w0 toSort).getD m none) := WF_getD w0 toSort hwf m
      have hlen := readInts_length w0 _ hb
      have hg := seqState_ints_getD w0 (readRows w0 toSort) (lenOf toSort) hl m hm
      refine ⟨⟨w0.ints.length + m, 0, lenOf ((readRows w0 toSort).getD m none)⟩, ?_, by simp,
        ?_, ?_⟩
      · rw [hout, List.getElem?_map, List.getElem?_range hm]
        rfl
      · simp only [inBounds, hg, sortInts_length, hlen]
        refine ⟨?_, by omega⟩
        simp only [seqState, List.length_append, List.length_map, List.length_take]
        omega
      · simp only [readInts, hg]
        rw [← hlen, ← sortInts_length]
        exact window_full _ _ }

/-- Whenever `sortConcurrent` returns, whatever the schedule, it has
established the postcondition, and the elapsed time is the difference of the
clock readings after the last and before the first statement. -/
theorem sortConcurrent_post {clk : Nat → Int} {sched : List Actor} {w0 : World}
    {toSort : BatchSlice} (hwf : WF w0 toSort) {r : World × BatchSlice × Int}
    (h : sortConcurrent clk sched w0 toSort = some r) :
    Post w0 toSort r.1 r.2.1 ∧
      r.2.2 = clk (w0.tick + 7 * lenOf toSort + 2) - clk w0.tick ∧
      r.1.tick = w0.tick + 7 * lenOf toSort + 3 ∧ sched.length = 7 * lenOf toSort + 2 := by
  have hl : (readRows w0 toSort).length = lenOf toSort := readRows_length w0 toSort hwf.1
  obtain ⟨c, hinv, hret, hw, hout, hrun⟩ := sortConcurrent_some hwf h
  obtain ⟨hlen, hpc, he⟩ := hinv.all_done hret
  have hrd : readRows c.world (some ⟨w0.rows.length, 0, (readRows w0 toSort).length⟩)
      = outArr w0 c := by
    rw [← hinv.out_len]
    exact window_full _ _
  have hprog : progress (readRows w0 toSort).length c = 7 * (readRows w0 toSort).length + 2 := by
    have hm := hinv.main_ok
    simp only [MainOk, hret] at hm
    have hs := (pcSum_of_live_zero c.tasks hinv.pc_le hm.2.2.1).1
    simp only [progress, hret, mainProgress, hs, hlen]
    omega
  have hsched := run_progress hwf sched (init_inv clk w0 toSort) hrun
  have hp0 : progress (readRows w0 toSort).length
      (initConfig (makeRows w0 (readRows w0 toSort).length).1) = 0 := by
    simp [progress, initConfig, mainProgress, pcSum]
  refine ⟨?_, ?_, ?_, ?_⟩
  · rw [← hw, hout]
    exact {
      out_eq := by rw [hl]
      ints_pre := hinv.ints_pre
      rows_eq := by rw [hrd]; exact hinv.rows_eq
      out_len := by rw [hrd, hinv.out_len, hl]
      slot := by
        intro m hm
        rw [hrd]
        exact hinv.slot_done hwf hret m (by omega) }
  · rw [he, hl]
  · rw [← hw, hinv.tick_eq, hprog, hl]
    omega
  · rw [hprog, hp0, hl] at hsched
    omega

/-! ## Consequences of the postcondition -/

/-- The output denotes the input batch with every sub-array sorted. -/
theorem Post.contents_eq {w0 w1 : World} {toSort out : BatchSlice} (hp : Post w0 toSort w1 out)
    (hwf : WF w0 toSort) : contents w1 out = (contents w0 toSort).map sortInts := by
  have hl : (readRows w0 toSort).length = lenOf toSort := readRows_length w0 toSort hwf.1
  simp only [contents, List.map_map]
  apply List.ext_getElem?
  intro m
  simp only [List.getElem?_map]
  by_cases hm : m < lenOf toSort
  · obtain ⟨h, h1, _, _, h2⟩ := hp.slot m hm
    rw [h1, List.getElem?_eq_getElem (by omega)]
    simp only [Option.map_some', Function.comp, h2, List.getD_eq_getElem?_getD,
      List.getElem?_eq_getElem (show m < (readRows w0 toSort).length by omega), Option.getD_some]
  · have := hp.out_len
    rw [List.getElem?_eq_none (by omega), List.getElem?_eq_none (by omega)]
    rfl

/-- The input slice denotes after the call what it denoted before. -/
theorem Post.input_same {w0 w1 : World} {toSort out : BatchSlice} (hp : Post w0 toSort w1 out)
    (hwf : WF w0 toSort) :
    readRows w1 toSort = readRows w0 toSort ∧ contents w1 toSort = contents w0 toSort := by
  have hr : readRows w1 toSort = readRows w0 toSort :=
    readRows_append w0 w1 _ toSort hp.rows_eq hwf.1
  refine ⟨hr, ?_⟩
  simp only [contents, hr]
  apply List.map_congr_left
  intro s hs
  exact readInts_prefix w0 w1 s hp.ints_pre (hwf.2 s hs)

/-- Every slot of the output holds a non-nil slice. -/
theorem Post.slots_some {w0 w1 : World} {toSort out : BatchSlice} (hp : Post w0 toSort w1 out) :
    ∀ s ∈ readRows w1 out, ∃ h : Hdr, s = some h ∧ w0.ints.length ≤ h.addr ∧
      inBounds w1.ints (some h) := by
  intro s hs
  obtain ⟨m, hm, rfl⟩ := List.getElem_of_mem hs
  have hm2 : m < lenOf toSort := by
    rw [← hp.out_len]
    exact hm
  obtain ⟨h, h1, h2, h3, _⟩ := hp.slot m hm2
  rw [List.getElem?_eq_getElem hm] at h1
  exact ⟨h, Option.some.inj h1, h2, h3⟩

/-- The returned batch is a well-formed value in the final heap. -/
theorem Post.wf_out {w0 w1 : World} {toSort out : BatchSlice} (hp : Post w0 toSort w1 out) :
    WF w1 out := by
  refine ⟨?_, ?_⟩
  · have h1 := hp.out_len
    have h2 := hp.rows_eq
    rw [hp.out_eq] at h1 h2 ⊢
    simp only [inBounds]
    have h3 : w1.rows.getD w0.rows.length []
        = readRows w1 (some ⟨w0.rows.length, 0, lenOf toSort⟩) := by
      conv_lhs => rw [h2]
      exact getD_snoc_self _ _ _
    rw [h3, h1]
    refine ⟨?_, by omega⟩
    rw [h2]
    simp
  · intro s hs
    obtain ⟨h, rfl, _, h3⟩ := hp.slots_some s hs
    exact h3

/-- The JSON text of the output: no `null`, each sub-array sorted. -/
theorem Post.encode_eq {w0 w1 : World} {toSort out : BatchSlice} (hp : Post w0 toSort w1 out)
    (hwf : WF w0 toSort) :
    encodeRows w1 out = some ((contents w0 toSort).map fun l => some (sortInts l)) := by
  have hc := hp.contents_eq hwf
  have hs := hp.slots_some
  have ho := hp.out_eq
  subst ho
  simp only [encodeRows, Option.some.injEq]
  have h1 : (readRows w1 (some ⟨w0.rows.length, 0, lenOf toSort⟩)).map (encodeInts w1)
      = (readRows w1 (some ⟨w0.rows.length, 0, lenOf toSort⟩)).map
          (fun s => some (readInts w1 s)) := by
    apply List.map_congr_left
    intro s hmem
    obtain ⟨h, rfl, _⟩ := hs s hmem
    rfl
  rw [h1]
  simp only [contents] at hc
  have h2 : ∀ (l : List IntSlice), l.map (fun s => some (readInts w1 s))
      = (l.map (readInts w1)).map some := by
    intro l
    simp [List.map_map, Function.comp]
  rw [h2, hc]
  simp [contents, List.map_map, Function.comp]

/-! ## Executions of the goroutines -/

theorem run_append (clk : Nat → Int) (start : Int) (toSort out : BatchSlice) (c : Config)
    (s1 s2 : List Actor) :
    run clk start toSort out c (s1 ++ s2)
      = (run clk start toSort out c s1).bind fun c1 => run clk start toSort out c1 s2 := by
  simp only [run, List.foldlM_append]
  rfl

theorem execute_eq (clk : Nat → Int) (sched : List Actor) (w0 : World) (toSort : BatchSlice)
    (hwf : WF w0 toSort) :
    execute clk sched w0 toSort =
      run clk (clk w0.tick) toSort (some ⟨w0.rows.length, 0, (readRows w0 toSort).length⟩)
        (initConfig (makeRows w0 (readRows w0 toSort).length).1) sched := by
  rw [readRows_length w0 toSort hwf.1]
  rfl

theorem sortConcurrent_eq_execute (clk : Nat → Int) (sched : List Actor) (w0 : World)
    (toSort : BatchSlice) :
    sortConcurrent clk sched w0 toSort =
      (execute clk sched w0 toSort).bind fun c =>
        match c.main with
        | .returned e => some (c.world, some ⟨w0.rows.length, 0, lenOf toSort⟩, e)
        | _ => none := by
  simp only [sortConcurrent, execute]
  cases run clk (clk w0.tick) toSort (makeRows w0 (lenOf toSort)).2
    (initConfig (makeRows w0 (lenOf toSort)).1) sched with
  | none => rfl
  | some c =>
    simp only [Option.some_bind]
    cases c.main <;> rfl

/-- The invariant holds in every configuration an execution reaches. -/
theorem execute_inv {clk : Nat → Int} {sched : List Actor} {w0 : World} {toSort : BatchSlice}
    (hwf : WF w0 toSort) {c : Config} (h : execute clk sched w0 toSort = some c) :
    Inv clk w0 toSort c := by
  rw [execute_eq clk sched w0 toSort hwf] at h
  exact run_inv hwf sched (init_inv clk w0 toSort) h

/-- Executions are finite: no schedule has more than `7 * n + 2` steps. -/
theorem execute_length {clk : Nat → Int} {sched : List Actor} {w0 : World} {toSort : BatchSlice}
    (hwf : WF w0 toSort) {c : Config} (h : execute clk sched w0 toSort = some c) :
    sched.length ≤ 7 * lenOf toSort + 2 := by
  have hinv := execute_inv hwf h
  rw [execute_eq clk sched w0 toSort hwf] at h
  have hp := run_progress hwf sched (init_inv clk w0 toSort) h
  have hp0 : progress (readRows w0 toSort).length
      (initConfig (makeRows w0 (readRows w0 toSort).length).1) = 0 := by
    simp [progress, initConfig, mainProgress, pcSum]
  have hle := hinv.progress_le.1
  rw [readRows_length w0 toSort hwf.1] at hp hp0 hle
  omega

/-- Every execution can be continued until `sortConcurrent` returns. -/
theorem execute_completes {clk : Nat → Int} {sched : List Actor} {w0 : World}
    {toSort : BatchSlice} (hwf : WF w0 toSort) {c : Config}
    (h : execute clk sched w0 toSort = some c) :
    ∃ rest r, sortConcurrent clk (sched ++ rest) w0 toSort = some r := by
  have hinv := execute_inv hwf h
  obtain ⟨rest, c2, e, hrun, he⟩ := exists_completion hwf _ hinv (le_refl _)
  refine ⟨rest, (c2.world, some ⟨w0.rows.length, 0, lenOf toSort⟩, e), ?_⟩
  rw [sortConcurrent_eq_execute]
  have h2 : execute clk (sched ++ rest) w0 toSort = some c2 := by
    rw [execute_eq clk _ w0 toSort hwf, run_append]
    rw [execute_eq clk sched w0 toSort hwf] at h
    rw [h]
    exact hrun
  rw [h2]
  simp [he]

/-- The function `sortConcurrent` returns: some schedule lets it return, and
every execution, however it began, can be continued until it returns. -/
theorem sortConcurrent_returns (clk : Nat → Int) (w0 : World) (toSort : BatchSlice)
    (hwf : WF w0 toSort) :
    (∃ sched r, sortConcurrent clk sched w0 toSort = some r) ∧
    ∀ sched c, execute clk sched w0 toSort = some c →
      ∃ rest rc, sortConcurrent clk (sched ++ rest) w0 toSort = some rc := by
  refine ⟨?_, fun sched c hc => execute_completes hwf hc⟩
  have he : execute clk [] w0 toSort = some (initConfig (makeRows w0 (lenOf toSort)).1) := rfl
  obtain ⟨rest, r, hr⟩ := execute_completes hwf he
  rw [List.nil_append] at hr
  exact ⟨rest, r, hr⟩

/-- No panic: in a reachable configuration an actor that can run takes its step. -/
theorem execute_snoc {clk : Nat → Int} {sched : List Actor} {w0 : World}
    {toSort : BatchSlice} (hwf : WF w0 toSort) {c : Config}
    (h : execute clk sched w0 toSort = some c) (a : Actor) (ha : canRun c a = true) :
    ∃ c2, execute clk (sched ++ [a]) w0 toSort = some c2 := by
  have hinv := execute_inv hwf h
  have hsome := step_isSome_iff hinv a
  rw [ha] at hsome
  obtain ⟨c2, hc2⟩ := Option.isSome_iff_exists.1 hsome
  refine ⟨c2, ?_⟩
  rw [execute_eq clk _ w0 toSort hwf, run_append]
  rw [execute_eq clk sched w0 toSort hwf] at h
  rw [h]
  simp only [Option.some_bind, run, List.foldlM_cons, List.foldlM_nil, hc2]
  rfl

/-- No deadlock: a reachable configuration in which no actor can run is one in
which the main goroutine has returned. -/
theorem execute_stuck {clk : Nat → Int} {sched : List Actor} {w0 : World}
    {toSort : BatchSlice} (hwf : WF w0 toSort) {c : Config}
    (h : execute clk sched w0 toSort = some c) (hstuck : ∀ a, canRun c a = false) :
    ∃ e, c.main = .returned e := by
  by_contra hcon
  push_neg at hcon
  obtain ⟨a, ha⟩ := exists_canRun (execute_inv hwf h) hcon
  rw [hstuck a] at ha
  cases ha

/-- In every reachable configuration the goroutines started so far are those
for the indices `0, 1, ...` in order, one each. -/
theorem Inv.indices {clk : Nat → Int} {w0 : World} {toSort : BatchSlice} {c : Config}
    (hinv : Inv clk w0 toSort c) : c.tasks.map Task.index = List.range c.tasks.length := by
  apply List.ext_getElem?
  intro m
  rw [List.getElem?_map]
  by_cases hm : m < c.tasks.length
  · rw [List.getElem?_eq_getElem hm, List.getElem?_range hm]
    have := (hinv.tasks_ok m _ (List.getElem?_eq_getElem hm)).index_eq
    simp [this]
  · rw [List.getElem?_eq_none (by omega), List.getElem?_eq_none (by simp; omega)]
    rfl

/-- A step of the `j`-th goroutine leaves every output slot other than `j`
as it was, and every other array of slices as well. -/
theorem stepTask_out {clk : Nat → Int} {w0 : World} {toSort : BatchSlice} {c c2 : Config}
    (hinv : Inv clk w0 toSort c) (j : Nat)
    (hstep : stepTask (some ⟨w0.rows.length, 0, (readRows w0 toSort).length⟩) c j = some c2) :
    ∃ t, c.tasks[j]? = some t ∧ t.index = j ∧
      ∀ m, m ≠ t.index → (outArr w0 c2)[m]? = (outArr w0 c)[m]? := by
  cases hj : c.tasks[j]? with
  | none => simp [stepTask, hj] at hstep
  | some t =>
    have hok := hinv.tasks_ok j t hj
    refine ⟨t, rfl, hok.index_eq, ?_⟩
    intro m hm
    rw [stepTask_eq _ c j t hj] at hstep
    split_ifs at hstep
    · cases hstep; rfl
    · cases hstep
      cases t.sorted <;> rfl
    · cases hstep
      cases t.sorted <;> rfl
    · simp only [storeRow] at hstep
      split_ifs at hstep
      · simp only [Option.map_some', Option.some.injEq] at hstep
        subst hstep
        have hlt : w0.rows.length < c.world.rows.length := by
          rw [hinv.rows_eq]
          simp
        simp only [outArr, getD_set_self _ _ _ _ hlt, Nat.zero_add]
        rw [List.getElem?_set]
        simp [Ne.symm hm]
      · cases hstep
    · cases hstep; rfl

/-- The main goroutine never writes to the output array. -/
theorem stepMain_out {clk : Nat → Int} {start : Int} {w0 : World} {toSort : BatchSlice}
    {c c2 : Config} (hstep : stepMain clk start toSort c = some c2) :
    outArr w0 c2 = outArr w0 c := by
  simp only [stepMain] at hstep
  split at hstep
  · split_ifs at hstep <;> cases hstep <;> rfl
  · cases hstep; rfl
  · split_ifs at hstep
    cases hstep
    rfl
  · cases hstep

/-! ## Heaps that hold a given batch -/

theorem readRows_worldOf (xss : List (List Int)) :
    readRows (worldOf xss) (batchOf xss)
      = (List.range xss.length).map fun i => some ⟨i, 0, (xss.getD i []).length⟩ := by
  simp only [readRows, worldOf, batchOf, List.getD_cons_zero]
  have := window_full ((List.range xss.length).map fun i =>
    some (Hdr.mk i 0 (xss.getD i []).length)) 0
  simpa using this

theorem worldOf_wf (xss : List (List Int)) : WF (worldOf xss) (batchOf xss) := by
  refine ⟨?_, ?_⟩
  · simp [inBounds, worldOf, batchOf]
  · intro s hs
    rw [readRows_worldOf] at hs
    obtain ⟨i, hi, rfl⟩ := List.mem_map.1 hs
    have hi := List.mem_range.1 hi
    simp [inBounds, worldOf, hi]

theorem contents_worldOf (xss : List (List Int)) :
    contents (worldOf xss) (batchOf xss) = xss := by
  simp only [contents, readRows_worldOf, List.map_map]
  apply List.ext_getElem?
  intro m
  rw [List.getElem?_map]
  by_cases hm : m < xss.length
  · rw [List.getElem?_range hm, List.getElem?_eq_getElem hm]
    simp only [Option.map_some', Function.comp, readInts, worldOf]
    have h1 : xss.getD m [] = xss[m] := List.getD_eq_getElem _ _ hm
    rw [h1]
    exact congrArg some (window_full _ _)
  · rw [List.getElem?_eq_none (by simp; omega), List.getElem?_eq_none (by omega)]
    rfl

theorem getD_map_sortInts (l : List (List Int)) (i : Nat) :
    (l.map sortInts).getD i [] = sortInts (l.getD i []) := by
  simp only [List.getD_eq_getElem?_getD, List.getElem?_map]
  cases l[i]? <;> rfl

theorem contents_length (w : World) (b : BatchSlice) (hb : inBounds w.rows b) :
    (contents w b).length = lenOf b := by
  simp only [contents, List.length_map]
  exact readRows_length w b hb

/-- What `sortSequential` returns for the batch `xss` held in a fresh heap. -/
theorem sortSequential_worldOf (clk : Nat → Int) (xss : List (List Int)) :
    (sortSequential clk (worldOf xss) (batchOf xss)).map (fun r => contents r.1 r.2.1)
      = some (xss.map sortInts) := by
  obtain ⟨w1, out, h, _, hp⟩ := sortSequential_post clk _ _ (worldOf_wf xss)
  rw [h]
  simp only [Option.map_some', hp.contents_eq (worldOf_wf xss), contents_worldOf]

/-- What `sortConcurrent` returns for the batch `xss` held in a fresh heap,
under any schedule that lets it return. -/
theorem sortConcurrent_worldOf (clk : Nat → Int) (sched : List Actor) (xss : List (List Int))
    (r : World × BatchSlice × Int)
    (h : sortConcurrent clk sched (worldOf xss) (batchOf xss) = some r) :
    contents r.1 r.2.1 = xss.map sortInts := by
  rw [(sortConcurrent_post (worldOf_wf xss) h).1.contents_eq (worldOf_wf xss), contents_worldOf]

/-- Either sorter, under any schedule: a result satisfies the postcondition. -/
theorem post_of_result {clk : Nat → Int} {w : World} {toSort : BatchSlice} (hwf : WF w toSort)
    {r : World × BatchSlice × Int}
    (h : sortSequential clk w toSort = some r ∨
      ∃ sched, sortConcurrent clk sched w toSort = some r) :
    Post w toSort r.1 r.2.1 := by
  rcases h with h | ⟨sched, h⟩
  · obtain ⟨w1, out, h1, _, hp⟩ := sortSequential_post clk w toSort hwf
    rw [h1] at h
    cases h
    exact hp
  · exact (sortConcurrent_post hwf h).1

theorem map_sortInts_congr (l r : List (List Int)) (hlen : l.length = r.length)
    (hperm : ∀ i, i < l.length → List.Perm (l.getD i []) (r.getD i [])) :
    l.map sortInts = r.map sortInts := by
  apply List.ext_getElem?
  intro m
  simp only [List.getElem?_map]
  by_cases hm : m < l.length
  · have h := hperm m hm
    rw [List.getD_eq_getElem _ _ hm, List.getD_eq_getElem _ _ (by omega)] at h
    rw [List.getElem?_eq_getElem hm, List.getElem?_eq_getElem (by omega)]
    simp only [Option.map_some', sortInts_congr _ _ h]
  · rw [List.getElem?_eq_none (by omega), List.getElem?_eq_none (by omega)]

/-- The last step of an execution that lets `sortConcurrent` return is the main
goroutine passing `wg.Wait()` and reading the clock, in a configuration in
which every goroutine has finished. -/
theorem sortConcurrent_last_step {clk : Nat → Int} {sched : List Actor} {w0 : World}
    {toSort : BatchSlice} (hwf : WF w0 toSort) {r : World × BatchSlice × Int}
    (h : sortConcurrent clk sched w0 toSort = some r) :
    ∃ s c, sched = s ++ [Actor.main] ∧ execute clk s w0 toSort = some c ∧ c.main = .wait ∧
      c.tasks.length = lenOf toSort ∧ (∀ t ∈ c.tasks, t.pc = 5) ∧
      c.world.tick = w0.tick + 7 * lenOf toSort + 2 ∧
      r.2.2 = clk c.world.tick - clk w0.tick := by
  have hl : (readRows w0 toSort).length = lenOf toSort := readRows_length w0 toSort hwf.1
  obtain ⟨_, helapsed, _, hlen⟩ := sortConcurrent_post hwf h
  obtain ⟨cf, hinvf, hret, _, _, hrun⟩ := sortConcurrent_some hwf h
  have hne : sched ≠ [] := by
    intro hnil
    rw [hnil] at hlen
    simp at hlen
  obtain ⟨s, a, rfl⟩ : ∃ s a, sched = s ++ [a] :=
    ⟨sched.dropLast, sched.getLast hne, (List.dropLast_append_getLast hne).symm⟩
  rw [run_append] at hrun
  cases hc : run clk (clk w0.tick) toSort
      (some ⟨w0.rows.length, 0, (readRows w0 toSort).length⟩)
      (initConfig (makeRows w0 (readRows w0 toSort).length).1) s with
  | none => simp [hc] at hrun
  | some c =>
    rw [hc] at hrun
    simp only [Option.some_bind, run, List.foldlM_cons, List.foldlM_nil] at hrun
    have hstep : step clk (clk w0.tick) toSort
        (some ⟨w0.rows.length, 0, (readRows w0 toSort).length⟩) c a = some cf := by
      cases hs : step clk (clk w0.tick) toSort
          (some ⟨w0.rows.length, 0, (readRows w0 toSort).length⟩) c a with
      | none => simp [hs] at hrun
      | some c1 =>
        simp only [hs, Option.bind_eq_bind, Option.some_bind] at hrun
        exact hrun
    have hinv := run_inv hwf s (init_inv clk w0 toSort) hc
    have hexec : execute clk s w0 toSort = some c := by
      rw [execute_eq clk s w0 toSort hwf]
      exact hc
    cases a with
    | task j =>
      exfalso
      simp only [step] at hstep
      cases hj : c.tasks[j]? with
      | none => simp [stepTask, hj] at hstep
      | some t =>
        have hmain : cf.main = c.main := by
          rw [stepTask_eq _ c j t hj] at hstep
          split_ifs at hstep
          · cases hstep; rfl
          · cases hstep; rfl
          · cases hstep; rfl
          · cases hsr : storeRow c.world
                (some ⟨w0.rows.length, 0, (readRows w0 toSort).length⟩) t.index t.sorted with
            | none => simp [hsr] at hstep
            | some w2 =>
              simp only [hsr, Option.map_some', Option.some.injEq] at hstep
              subst hstep
              rfl
          · cases hstep; rfl
        rw [hmain] at hret
        have hcan := step_isSome_iff hinv (Actor.task j)
        simp only [step, hstep, Option.isSome_some, canRun, hj] at hcan
        have h5 := (hinv.all_done hret).2.1 t (List.mem_iff_getElem?.2 ⟨j, hj⟩)
        simp [h5] at hcan
    | main =>
      simp only [step, stepMain] at hstep
      split at hstep
      · split_ifs at hstep <;> cases hstep <;> cases hret
      · cases hstep
        cases hret
      · rename_i hw
        split_ifs at hstep with hwg
        cases hstep
        have hm := hinv.main_ok
        simp only [MainOk, hw] at hm
        have hlive : live c.tasks = 0 := by omega
        have hdone := pcSum_of_live_zero c.tasks hinv.pc_le hlive
        simp only [MainPc.returned.injEq] at hret
        have htick := hinv.tick_eq
        simp only [progress, hw, mainProgress, hdone.1, hm.1, hl] at htick
        refine ⟨s, c, rfl, hexec, hw, by omega, hdone.2, by omega, hret.symm⟩
      · cases hstep

/-- There are never more goroutines than sub-arrays. -/
theorem Inv.tasks_le {clk : Nat → Int} {w0 : World} {toSort : BatchSlice} {c : Config}
    (hinv : Inv clk w0 toSort c) : c.tasks.length ≤ (readRows w0 toSort).length := by
  by_contra hcon
  have hlt : (readRows w0 toSort).length < c.tasks.length := by omega
  have := (hinv.tasks_ok _ _ (List.getElem?_eq_getElem hlt)).index_lt
  omega

/-! ## Every call of a sorter executes statements -/

theorem seqBody_tick {toSort out : BatchSlice} {w w2 : World} {i : Nat}
    (h : seqBody toSort out w i = some w2) : w2.tick = w.tick + 4 := by
  simp only [seqBody, makeInts, copyInts, sortIntsInPlace, storeRow] at h
  cases out with
  | none => simp at h
  | some o =>
    simp only at h
    split_ifs at h
    cases h
    rfl

theorem seqLoop_tick {toSort out : BatchSlice} (l : List Nat) :
    ∀ {w w2 : World}, l.foldlM (seqBody toSort out) w = some w2 →
      w2.tick = w.tick + 4 * l.length := by
  induction l with
  | nil =>
    intro w w2 h
    simp only [List.foldlM_nil] at h
    cases h
    rfl
  | cons i l ih =>
    intro w w2 h
    simp only [List.foldlM_cons] at h
    cases hb : seqBody toSort out w i with
    | none => simp [hb] at h
    | some w1 =>
      rw [hb] at h
      have h1 := seqBody_tick hb
      have h2 := ih h
      simp only [List.length_cons]
      omega

/-- A call of `sortSequential` that returns has executed `1 + 4 * n` statements. -/
theorem sortSequential_tick {clk : Nat → Int} {w : World} {toSort : BatchSlice}
    {r : World × BatchSlice × Int} (h : sortSequential clk w toSort = some r) :
    r.1.tick = w.tick + 1 + 4 * lenOf toSort := by
  simp only [sortSequential] at h
  cases hl : (List.range (lenOf toSort)).foldlM (seqBody toSort (makeRows w (lenOf toSort)).2)
      (makeRows w (lenOf toSort)).1 with
  | none => simp [hl] at h
  | some w2 =>
    simp only [hl, Option.some.injEq] at h
    subst h
    have := seqLoop_tick _ hl
    simp only [List.length_range] at this
    rw [this]
    rfl

theorem step_tick {clk : Nat → Int} {start : Int} {toSort out : BatchSlice} {c c2 : Config}
    (a : Actor) (hstep : step clk start toSort out c a = some c2) :
    c2.world.tick = c.world.tick + 1 := by
  cases a with
  | main =>
    simp only [step, stepMain] at hstep
    split at hstep
    · split_ifs at hstep <;> cases hstep <;> rfl
    · cases hstep; rfl
    · split_ifs at hstep; cases hstep; rfl
    · cases hstep
  | task j =>
    simp only [step] at hstep
    cases hj : c.tasks[j]? with
    | none => simp [stepTask, hj] at hstep
    | some t =>
      rw [stepTask_eq _ c j t hj] at hstep
      split_ifs at hstep
      · cases hstep; rfl
      · cases hstep
        cases t.sorted <;> rfl
      · cases hstep
        cases t.sorted <;> rfl
      · cases out with
        | none => simp [storeRow] at hstep
        | some o =>
          simp only [storeRow] at hstep
          split_ifs at hstep
          · simp only [Option.map_some', Option.some.injEq] at hstep
            subst hstep
            rfl
          · cases hstep
      · cases hstep; rfl

theorem run_tick {clk : Nat → Int} {start : Int} {toSort out : BatchSlice} (sched : List Actor) :
    ∀ {c c2 : Config}, run clk start toSort out c sched = some c2 →
      c2.world.tick = c.world.tick + sched.length := by
  induction sched with
  | nil =>
    intro c c2 h
    simp only [run, List.foldlM_nil] at h
    cases h
    rfl
  | cons a rest ih =>
    intro c c2 h
    simp only [run, List.foldlM_cons] at h
    cases hs : step clk start toSort out c a with
    | none => simp [hs] at h
    | some c1 =>
      rw [hs] at h
      have h1 := step_tick a hs
      have h2 := ih h
      simp only [List.length_cons]
      omega

/-- A call of `sortConcurrent` that returns has executed one statement more
than its schedule has steps. -/
theorem sortConcurrent_tick {clk : Nat → Int} {sched : List Actor} {w : World}
    {toSort : BatchSlice} {r : World × BatchSlice × Int}
    (h : sortConcurrent clk sched w toSort = some r) :
    r.1.tick = w.tick + 1 + sched.length := by
  simp only [sortConcurrent] at h
  cases hr : run clk (clk w.tick) toSort (makeRows w (lenOf toSort)).2
      (initConfig (makeRows w (lenOf toSort)).1) sched with
  | none => simp [hr] at h
  | some c =>
    simp only [hr] at h
    have ht := run_tick sched hr
    split at h
    · cases h
      rw [ht]
      rfl
    · cases h

/-! ## The handlers, by the outcome of decoding -/

theorem processSingleHandler_error {decode : String → World → Except String (World × SortRequest)}
    {clk : Nat → Int} {w : World} {body err : String} (h : decode body w = .error err) :
    processSingleHandler decode clk w body = some (w, .httpError err 400) := by
  simp only [processSingleHandler, h]
  rfl

theorem processConcurrentHandler_error
    {decode : String → World → Except String (World × SortRequest)}
    {clk : Nat → Int} {sched : List Actor} {w : World} {body err : String}
    (h : decode body w = .error err) :
    processConcurrentHandler decode clk sched w body = some (w, .httpError err 400) := by
  simp only [processConcurrentHandler, h]
  rfl

theorem processSingleHandler_ok {decode : String → World → Except String (World × SortRequest)}
    {clk : Nat → Int} {w w1 : World} {body : String} {req : SortRequest}
    (h : decode body w = .ok (w1, req)) :
    processSingleHandler decode clk w body =
      (sortSequential clk w1 req.toSort).map fun r =>
        (r.1, Reply.encoded (encodeRows r.1 r.2.1) r.2.2) := by
  simp only [processSingleHandler, h]
  cases sortSequential clk w1 req.toSort <;> rfl

theorem processConcurrentHandler_ok
    {decode : String → World → Except String (World × SortRequest)}
    {clk : Nat → Int} {sched : List Actor} {w w1 : World} {body : String} {req : SortRequest}
    (h : decode body w = .ok (w1, req)) :
    processConcurrentHandler decode clk sched w body =
      (sortConcurrent clk sched w1 req.toSort).map fun r =>
        (r.1, Reply.encoded (encodeRows r.1 r.2.1) r.2.2) := by
  simp only [processConcurrentHandler, h]
  cases sortConcurrent clk sched w1 req.toSort <;> rfl

/-! ## The claims -/

/-- C1: for every well-formed batch `toSort`, `sortSequential` returns; the
returned slice has the length of `toSort`, and for every index `i` its `i`-th
sub-array is non-decreasing and a permutation of `toSort[i]` (every value occurs
with the same multiplicity). The batches `[[5,3,1],[2,2,2],[]]` and `[[3,1,2]]`
give `[[1,3,5],[2,2,2],[]]` and `[[1,2,3]]`, and every list of integer lists is
the content of a well-formed batch. -/
theorem C1_sortSequential_sorted_perm (clk : Nat → Int) (w : World) (toSort : BatchSlice)
    (hwf : WF w toSort) :
    (∃ w1 out t, sortSequential clk w toSort = some (w1, out, t) ∧
      lenOf out = lenOf toSort ∧
      (contents w1 out).length = (contents w toSort).length ∧
      ∀ i, i < lenOf toSort →
        List.Sorted (fun a b : Int => a ≤ b) ((contents w1 out).getD i []) ∧
        List.Perm ((contents w1 out).getD i []) ((contents w toSort).getD i []) ∧
        ∀ x : Int, ((contents w1 out).getD i []).count x
          = ((contents w toSort).getD i []).count x) ∧
    (sortSequential clk (worldOf [[5, 3, 1], [2, 2, 2], []])
        (batchOf [[5, 3, 1], [2, 2, 2], []])).map (fun r => contents r.1 r.2.1)
      = some [[1, 3, 5], [2, 2, 2], []] ∧
    (sortSequential clk (worldOf [[3, 1, 2]]) (batchOf [[3, 1, 2]])).map
        (fun r => contents r.1 r.2.1) = some [[1, 2, 3]] ∧
    (∀ xss : List (List Int), WF (worldOf xss) (batchOf xss) ∧
      contents (worldOf xss) (batchOf xss) = xss) := by
  refine ⟨?_, ?_, ?_, fun xss => ⟨worldOf_wf xss, contents_worldOf xss⟩⟩
  · obtain ⟨w1, out, h, _, hp⟩ := sortSequential_post clk w toSort hwf
    have hc := hp.contents_eq hwf
    refine ⟨w1, out, _, h, ?_, ?_, ?_⟩
    · rw [hp.out_eq]
      rfl
    · rw [hc, List.length_map]
    · intro i _
      rw [hc, getD_map_sortInts]
      exact ⟨sortInts_sorted _, sortInts_perm _, fun x => (sortInts_perm _).count_eq x⟩
  · rw [sortSequential_worldOf]
    decide
  · rw [sortSequential_worldOf]
    decide

/-- C1 at the batch `[[3, -1, 3], []]`. -/
theorem C1_sortSequential_sorted_perm_witness :
    WF (worldOf [[3, -1, 3], []]) (batchOf [[3, -1, 3], []]) ∧
    ∃ w1 out t, sortSequential (fun n => (n : Int)) (worldOf [[3, -1, 3], []])
        (batchOf [[3, -1, 3], []]) = some (w1, out, t) ∧ lenOf out = 2 :=
  ⟨by decide, by
    obtain ⟨⟨w1, out, t, h, hl, _⟩, _⟩ := C1_sortSequential_sorted_perm (fun n => (n : Int))
      (worldOf [[3, -1, 3], []]) (batchOf [[3, -1, 3], []]) (by decide)
    exact ⟨w1, out, t, h, hl⟩⟩

/-- C2: for every well-formed batch, whatever the schedule of the goroutines,
the arrays `sortConcurrent` returns are equal, sub-array for sub-array and
element for element, to those `sortSequential` returns (and so is their JSON
text). The function does return under every scheduling: an execution has at
most `7 * n + 2` steps, an actor that can run takes its step without a panic,
an execution in which no actor can run has returned, and every execution can
be continued until `sortConcurrent` returns. -/
theorem C2_concurrent_eq_sequential (clk : Nat → Int) (w : World) (toSort : BatchSlice)
    (hwf : WF w toSort) :
    ∃ rs, sortSequential clk w toSort = some rs ∧
      (∀ sched rc, sortConcurrent clk sched w toSort = some rc →
        contents rc.1 rc.2.1 = contents rs.1 rs.2.1 ∧
        encodeRows rc.1 rc.2.1 = encodeRows rs.1 rs.2.1) ∧
      (∀ sched c, execute clk sched w toSort = some c →
        sched.length ≤ 7 * lenOf toSort + 2 ∧
        (∀ a, canRun c a = true → ∃ c2, execute clk (sched ++ [a]) w toSort = some c2) ∧
        ((∀ a, canRun c a = false) → ∃ e, c.main = .returned e) ∧
        ∃ rest rc, sortConcurrent clk (sched ++ rest) w toSort = some rc) := by
  obtain ⟨w1, out, h, _, hp⟩ := sortSequential_post clk w toSort hwf
  refine ⟨_, h, ?_, ?_⟩
  · intro sched rc hc
    have hpc := (sortConcurrent_post hwf hc).1
    exact ⟨by rw [hpc.contents_eq hwf, hp.contents_eq hwf],
      by rw [hpc.encode_eq hwf, hp.encode_eq hwf]⟩
  · intro sched c hc
    exact ⟨execute_length hwf hc, fun a ha => execute_snoc hwf hc a ha,
      fun hstuck => execute_stuck hwf hc hstuck, execute_completes hwf hc⟩

/-- C2 at the batch `[[5, 3, 1], [2, -2, 2]]`, with a schedule that interleaves
the two goroutines. -/
theorem C2_concurrent_eq_sequential_witness :
    WF (worldOf [[5, 3, 1], [2, -2, 2]]) (batchOf [[5, 3, 1], [2, -2, 2]]) ∧
    ∃ rs rc, sortSequential (fun n => (n : Int)) (worldOf [[5, 3, 1], [2, -2, 2]])
        (batchOf [[5, 3, 1], [2, -2, 2]]) = some rs ∧
      sortConcurrent (fun n => (n : Int))
        [.main, .main, .main, .main, .task 1, .task 0, .task 1, .task 0, .task 0, .task 1,
          .task 1, .task 0, .task 0, .task 1, .main, .main]
        (worldOf [[5, 3, 1], [2, -2, 2]]) (batchOf [[5, 3, 1], [2, -2, 2]]) = some rc ∧
      contents rc.1 rc.2.1 = contents rs.1 rs.2.1 ∧
      contents rc.1 rc.2.1 = [[1, 3, 5], [-2, 2, 2]] :=
  ⟨by decide, by
    obtain ⟨rs, hs, hall, _⟩ := C2_concurrent_eq_sequential (fun n => (n : Int))
      (worldOf [[5, 3, 1], [2, -2, 2]]) (batchOf [[5, 3, 1], [2, -2, 2]]) (by decide)
    have hsome : (sortConcurrent (fun n => (n : Int))
        [.main, .main, .main, .main, .task 1, .task 0, .task 1, .task 0, .task 0, .task 1,
          .task 1, .task 0, .task 0, .task 1, .main, .main]
        (worldOf [[5, 3, 1], [2, -2, 2]]) (batchOf [[5, 3, 1], [2, -2, 2]])).isSome = true := by
      decide
    obtain ⟨rc, hc⟩ := Option.isSome_iff_exists.1 hsome
    refine ⟨rs, rc, hs, hc, (hall _ rc hc).1, ?_⟩
    rw [sortConcurrent_worldOf _ _ _ rc hc]
    decide⟩

/-- C4: for every well-formed batch, when `sortSequential` or `sortConcurrent`
(under any schedule) has returned, every array that existed before the call is
unchanged, so `toSort` and each of its sub-arrays hold the same elements in the
same order; the arrays written are the output array and the arrays of its
slots, all allocated during the call. In `sortConcurrent` this holds at every
point of every execution. -/
theorem C4_input_not_mutated (clk : Nat → Int) (w : World) (toSort : BatchSlice)
    (hwf : WF w toSort) :
    (∃ r, sortSequential clk w toSort = some r) ∧
    (∀ r, (sortSequential clk w toSort = some r ∨
        ∃ sched, sortConcurrent clk sched w toSort = some r) →
      w.ints <+: r.1.ints ∧ w.rows <+: r.1.rows ∧
      readRows r.1 toSort = readRows w toSort ∧
      contents r.1 toSort = contents w toSort ∧
      (∀ s ∈ readRows w toSort, readInts r.1 s = readInts w s) ∧
      (∃ h : Hdr, r.2.1 = some h ∧ w.rows.length ≤ h.addr) ∧
      ∀ s ∈ readRows r.1 r.2.1, ∃ h : Hdr, s = some h ∧ w.ints.length ≤ h.addr) ∧
    (∀ sched c, execute clk sched w toSort = some c →
      w.ints <+: c.world.ints ∧ w.rows <+: c.world.rows) := by
  refine ⟨?_, ?_, ?_⟩
  · obtain ⟨w1, out, h, _, _⟩ := sortSequential_post clk w toSort hwf
    exact ⟨_, h⟩
  · intro r hr
    have hp := post_of_result hwf hr
    refine ⟨hp.ints_pre, ⟨_, hp.rows_eq.symm⟩, (hp.input_same hwf).1, (hp.input_same hwf).2, ?_, ?_, ?_⟩
    · intro s hs
      exact readInts_prefix w r.1 s hp.ints_pre (hwf.2 s hs)
    · exact ⟨_, hp.out_eq, le_refl _⟩
    · intro s hs
      obtain ⟨h, h1, h2, _⟩ := hp.slots_some s hs
      exact ⟨h, h1, h2⟩
  · intro sched c hc
    have hinv := execute_inv hwf hc
    exact ⟨hinv.ints_pre, ⟨_, hinv.rows_eq.symm⟩⟩

/-- C4 at the batch `[[3, 1, 2], [0]]`. -/
theorem C4_input_not_mutated_witness :
    WF (worldOf [[3, 1, 2], [0]]) (batchOf [[3, 1, 2], [0]]) ∧
    ∃ r, sortSequential (fun n => (n : Int)) (worldOf [[3, 1, 2], [0]])
        (batchOf [[3, 1, 2], [0]]) = some r ∧
      contents r.1 (batchOf [[3, 1, 2], [0]]) = [[3, 1, 2], [0]] :=
  ⟨by decide, by
    obtain ⟨⟨r, hr⟩, hall, _⟩ := C4_input_not_mutated (fun n => (n : Int))
      (worldOf [[3, 1, 2], [0]]) (batchOf [[3, 1, 2], [0]]) (by decide)
    refine ⟨r, hr, ?_⟩
    rw [(hall r (Or.inl hr)).2.2.2.1]
    decide⟩

/-- C6: for every well-formed batch both sorters return (`sortConcurrent`
under some schedule, and from every execution by continuing it); a sub-array
that is already non-decreasing is returned unchanged by both sorters; and
applying either sorter to the arrays a sorter returned does return and yields
the same arrays again. -/
theorem C6_idempotent (clk clk2 : Nat → Int) (w : World) (toSort : BatchSlice)
    (hwf : WF w toSort) :
    (∃ r, sortSequential clk w toSort = some r) ∧
    (∃ sched r, sortConcurrent clk sched w toSort = some r) ∧
    (∀ sched c, execute clk sched w toSort = some c →
      ∃ rest rc, sortConcurrent clk (sched ++ rest) w toSort = some rc) ∧
    ∀ r, (sortSequential clk w toSort = some r ∨
        ∃ sched, sortConcurrent clk sched w toSort = some r) →
      (∀ i, List.Sorted (fun a b : Int => a ≤ b) ((contents w toSort).getD i []) →
        (contents r.1 r.2.1).getD i [] = (contents w toSort).getD i []) ∧
      (∃ r2, sortSequential clk2 r.1 r.2.1 = some r2 ∧
        contents r2.1 r2.2.1 = contents r.1 r.2.1) ∧
      (∃ sched2 r2, sortConcurrent clk2 sched2 r.1 r.2.1 = some r2 ∧
        contents r2.1 r2.2.1 = contents r.1 r.2.1) ∧
      (∀ sched2 r2, sortConcurrent clk2 sched2 r.1 r.2.1 = some r2 →
        contents r2.1 r2.2.1 = contents r.1 r.2.1) := by
  refine ⟨?_, (sortConcurrent_returns clk w toSort hwf).1,
    (sortConcurrent_returns clk w toSort hwf).2, ?_⟩
  · obtain ⟨w1, out, h, _, _⟩ := sortSequential_post clk w toSort hwf
    exact ⟨_, h⟩
  · intro r hr
    have hp := post_of_result hwf hr
    have hc := hp.contents_eq hwf
    have hwf2 := hp.wf_out
    have hidem : (contents r.1 r.2.1).map sortInts = contents r.1 r.2.1 := by
      rw [hc, List.map_map]
      apply List.map_congr_left
      intro l _
      exact sortInts_idem l
    have hagain : ∀ sched2 r2, sortConcurrent clk2 sched2 r.1 r.2.1 = some r2 →
        contents r2.1 r2.2.1 = contents r.1 r.2.1 := by
      intro sched2 r2 h2
      rw [(sortConcurrent_post hwf2 h2).1.contents_eq hwf2, hidem]
    refine ⟨?_, ?_, ?_, hagain⟩
    · intro i hs
      rw [hc, getD_map_sortInts]
      exact sortInts_of_sorted _ hs
    · obtain ⟨w2, out2, h2, _, hp2⟩ := sortSequential_post clk2 r.1 r.2.1 hwf2
      exact ⟨_, h2, by rw [hp2.contents_eq hwf2, hidem]⟩
    · obtain ⟨sched2, r2, h2⟩ := (sortConcurrent_returns clk2 r.1 r.2.1 hwf2).1
      exact ⟨sched2, r2, h2, hagain sched2 r2 h2⟩

/-- C6 at the batch `[[1, 2, 2], [4, 0]]`, whose first sub-array is sorted:
`sortSequential`, and `sortConcurrent` under a schedule that interleaves the
two goroutines, return it unchanged, and sorting either result again, with
either sorter, returns the same arrays. -/
theorem C6_idempotent_witness :
    WF (worldOf [[1, 2, 2], [4, 0]]) (batchOf [[1, 2, 2], [4, 0]]) ∧
    (∃ r r2, sortSequential (fun n => (n : Int)) (worldOf [[1, 2, 2], [4, 0]])
        (batchOf [[1, 2, 2], [4, 0]]) = some r ∧
      (contents r.1 r.2.1).getD 0 [] = [1, 2, 2] ∧
      sortSequential (fun n => (n : Int)) r.1 r.2.1 = some r2 ∧
      contents r2.1 r2.2.1 = contents r.1 r.2.1) ∧
    (∃ rc sched2 r2, sortConcurrent (fun n => (n : Int))
        [.main, .main, .main, .main, .task 1, .task 0, .task 1, .task 0, .task 0, .task 1,
          .task 1, .task 0, .task 0, .task 1, .main, .main]
        (worldOf [[1, 2, 2], [4, 0]]) (batchOf [[1, 2, 2], [4, 0]]) = some rc ∧
      contents rc.1 rc.2.1 = [[1, 2, 2], [0, 4]] ∧
      (contents rc.1 rc.2.1).getD 0 [] = [1, 2, 2] ∧
      sortConcurrent (fun n => (n : Int)) sched2 rc.1 rc.2.1 = some r2 ∧
      contents r2.1 r2.2.1 = contents rc.1 rc.2.1) :=
  ⟨by decide, by
    obtain ⟨⟨r, hr⟩, _, _, hall⟩ := C6_idempotent (fun n => (n : Int)) (fun n => (n : Int))
      (worldOf [[1, 2, 2], [4, 0]]) (batchOf [[1, 2, 2], [4, 0]]) (by decide)
    obtain ⟨h1, ⟨r2, h2, h3⟩, _⟩ := hall r (Or.inl hr)
    refine ⟨r, r2, hr, ?_, h2, h3⟩
    rw [h1 0 (by rw [contents_worldOf]; decide), contents_worldOf]
    rfl, by
    obtain ⟨_, _, _, hall⟩ := C6_idempotent (fun n => (n : Int)) (fun n => (n : Int))
      (worldOf [[1, 2, 2], [4, 0]]) (batchOf [[1, 2, 2], [4, 0]]) (by decide)
    have hsome : (sortConcurrent (fun n => (n : Int))
        [.main, .main, .main, .main, .task 1, .task 0, .task 1, .task 0, .task 0, .task 1,
          .task 1, .task 0, .task 0, .task 1, .main, .main]
        (worldOf [[1, 2, 2], [4, 0]]) (batchOf [[1, 2, 2], [4, 0]])).isSome = true := by
      decide
    obtain ⟨rc, hc⟩ := Option.isSome_iff_exists.1 hsome
    obtain ⟨h1, _, ⟨sched2, r2, h2, h3⟩, _⟩ := hall rc (Or.inr ⟨_, hc⟩)
    refine ⟨rc, sched2, r2, hc, ?_, ?_, h2, h3⟩
    · rw [sortConcurrent_worldOf _ _ _ rc hc]
      decide
    · rw [h1 0 (by rw [contents_worldOf]; decide), contents_worldOf]
      rfl⟩

/-- C10: for every two well-formed batches of the same length whose sub-arrays
at each index are permutations of one another, `sortSequential` returns
identical arrays for both; `sortConcurrent` returns for both (under some
schedules, and from every execution by continuing it), and under any two
schedules that let it return the arrays are identical. -/
theorem C10_depends_on_multiset_only (clk clk2 : Nat → Int) (w w2 : World) (a b : BatchSlice)
    (hwa : WF w a) (hwb : WF w2 b) (hlen : lenOf a = lenOf b)
    (hperm : ∀ i, i < lenOf a →
      List.Perm ((contents w a).getD i []) ((contents w2 b).getD i [])) :
    (∃ ra rb, sortSequential clk w a = some ra ∧ sortSequential clk2 w2 b = some rb ∧
      contents ra.1 ra.2.1 = contents rb.1 rb.2.1) ∧
    (∃ s1 s2 ra rb, sortConcurrent clk s1 w a = some ra ∧
      sortConcurrent clk2 s2 w2 b = some rb ∧
      contents ra.1 ra.2.1 = contents rb.1 rb.2.1) ∧
    (∀ sched c, execute clk sched w a = some c →
      ∃ rest rc, sortConcurrent clk (sched ++ rest) w a = some rc) ∧
    (∀ sched c, execute clk2 sched w2 b = some c →
      ∃ rest rc, sortConcurrent clk2 (sched ++ rest) w2 b = some rc) ∧
    (∀ s1 s2 ra rb, sortConcurrent clk s1 w a = some ra →
      sortConcurrent clk2 s2 w2 b = some rb →
      contents ra.1 ra.2.1 = contents rb.1 rb.2.1) := by
  have hla := contents_length w a hwa.1
  have hlb := contents_length w2 b hwb.1
  have hcong : (contents w a).map sortInts = (contents w2 b).map sortInts :=
    map_sortInts_congr _ _ (by omega) (fun i hi => hperm i (by omega))
  have hany : ∀ s1 s2 ra rb, sortConcurrent clk s1 w a = some ra →
      sortConcurrent clk2 s2 w2 b = some rb →
      contents ra.1 ra.2.1 = contents rb.1 rb.2.1 := by
    intro s1 s2 ra rb ha hb
    rw [(sortConcurrent_post hwa ha).1.contents_eq hwa,
      (sortConcurrent_post hwb hb).1.contents_eq hwb, hcong]
  refine ⟨?_, ?_, (sortConcurrent_returns clk w a hwa).2,
    (sortConcurrent_returns clk2 w2 b hwb).2, hany⟩
  · obtain ⟨wa, oa, ha, _, hpa⟩ := sortSequential_post clk w a hwa
    obtain ⟨wb, ob, hb, _, hpb⟩ := sortSequential_post clk2 w2 b hwb
    exact ⟨_, _, ha, hb, by rw [hpa.contents_eq hwa, hpb.contents_eq hwb, hcong]⟩
  · obtain ⟨s1, ra, ha⟩ := (sortConcurrent_returns clk w a hwa).1
    obtain ⟨s2, rb, hb⟩ := (sortConcurrent_returns clk2 w2 b hwb).1
    exact ⟨s1, s2, ra, rb, ha, hb, hany s1 s2 ra rb ha hb⟩

/-- C10 at the batches `[[3, 1, 2], [7, 7, 0]]` and `[[2, 3, 1], [0, 7, 7]]`:
`sortSequential` returns the same arrays for both, and so does
`sortConcurrent` under two different schedules. -/
theorem C10_depends_on_multiset_only_witness :
    WF (worldOf [[3, 1, 2], [7, 7, 0]]) (batchOf [[3, 1, 2], [7, 7, 0]]) ∧
    WF (worldOf [[2, 3, 1], [0, 7, 7]]) (batchOf [[2, 3, 1], [0, 7, 7]]) ∧
    (∃ ra rb, sortSequential (fun n => (n : Int)) (worldOf [[3, 1, 2], [7, 7, 0]])
        (batchOf [[3, 1, 2], [7, 7, 0]]) = some ra ∧
      sortSequential (fun n => (n : Int)) (worldOf [[2, 3, 1], [0, 7, 7]])
        (batchOf [[2, 3, 1], [0, 7, 7]]) = some rb ∧
      contents ra.1 ra.2.1 = contents rb.1 rb.2.1) ∧
    (∃ ra rb, sortConcurrent (fun n => (n : Int))
        [.main, .main, .main, .main, .task 1, .task 0, .task 1, .task 0, .task 0, .task 1,
          .task 1, .task 0, .task 0, .task 1, .main, .main]
        (worldOf [[3, 1, 2], [7, 7, 0]]) (batchOf [[3, 1, 2], [7, 7, 0]]) = some ra ∧
      sortConcurrent (fun n => (n : Int))
        [.main, .main, .task 0, .task 0, .task 0, .task 0, .task 0, .main, .main,
          .task 1, .task 1, .task 1, .task 1, .task 1, .main, .main]
        (worldOf [[2, 3, 1], [0, 7, 7]]) (batchOf [[2, 3, 1], [0, 7, 7]]) = some rb ∧
      contents ra.1 ra.2.1 = contents rb.1 rb.2.1 ∧
      contents ra.1 ra.2.1 = [[1, 2, 3], [0, 7, 7]]) :=
  ⟨by decide, by decide,
    (C10_depends_on_multiset_only (fun n => (n : Int)) (fun n => (n : Int))
      (worldOf [[3, 1, 2], [7, 7, 0]]) (worldOf [[2, 3, 1], [0, 7, 7]])
      (batchOf [[3, 1, 2], [7, 7, 0]]) (batchOf [[2, 3, 1], [0, 7, 7]])
      (by decide) (by decide) (by decide) (by
        intro i hi
        have hi2 : i < 2 := hi
        rw [contents_worldOf, contents_worldOf]
        interval_cases i <;> decide)).1, by
    have hany := (C10_depends_on_multiset_only (fun n => (n : Int)) (fun n => (n : Int))
      (worldOf [[3, 1, 2], [7, 7, 0]]) (worldOf [[2, 3, 1], [0, 7, 7]])
      (batchOf [[3, 1, 2], [7, 7, 0]]) (batchOf [[2, 3, 1], [0, 7, 7]])
      (by decide) (by decide) (by decide) (by
        intro i hi
        have hi2 : i < 2 := hi
        rw [contents_worldOf, contents_worldOf]
        interval_cases i <;> decide)).2.2.2.2
    have hsa : (sortConcurrent (fun n => (n : Int))
        [.main, .main, .main, .main, .task 1, .task 0, .task 1, .task 0, .task 0, .task 1,
          .task 1, .task 0, .task 0, .task 1, .main, .main]
        (worldOf [[3, 1, 2], [7, 7, 0]]) (batchOf [[3, 1, 2], [7, 7, 0]])).isSome = true := by
      decide
    have hsb : (sortConcurrent (fun n => (n : Int))
        [.main, .main, .task 0, .task 0, .task 0, .task 0, .task 0, .main, .main,
          .task 1, .task 1, .task 1, .task 1, .task 1, .main, .main]
        (worldOf [[2, 3, 1], [0, 7, 7]]) (batchOf [[2, 3, 1], [0, 7, 7]])).isSome = true := by
      decide
    obtain ⟨ra, ha⟩ := Option.isSome_iff_exists.1 hsa
    obtain ⟨rb, hb⟩ := Option.isSome_iff_exists.1 hsb
    refine ⟨ra, rb, ha, hb, hany _ _ ra rb ha hb, ?_⟩
    rw [sortConcurrent_worldOf _ _ _ ra ha]
    decide⟩

/-- C3: both handlers answer with status 400 exactly when decoding the body
fails. In that case the reply is `http.Error` with the decoder's message, the
heap and the statement counter are as they were (a call of a sorter always
executes statements), and nothing is encoded. When decoding succeeds the
reply is the encoding of the sorter's result, with status 200. -/
theorem C3_bad_request_iff_decode_fails
    (decode : String → World → Except String (World × SortRequest)) (clk : Nat → Int)
    (sched : List Actor) (w : World) (body : String) :
    (∀ err, decode body w = .error err →
      processSingleHandler decode clk w body = some (w, .httpError err 400) ∧
      processConcurrentHandler decode clk sched w body = some (w, .httpError err 400)) ∧
    (∀ w1 req, decode body w = .ok (w1, req) →
      processSingleHandler decode clk w body =
        (sortSequential clk w1 req.toSort).map (fun r =>
          (r.1, Reply.encoded (encodeRows r.1 r.2.1) r.2.2)) ∧
      processConcurrentHandler decode clk sched w body =
        (sortConcurrent clk sched w1 req.toSort).map (fun r =>
          (r.1, Reply.encoded (encodeRows r.1 r.2.1) r.2.2)) ∧
      (WF w1 req.toSort →
        (∃ res, processSingleHandler decode clk w body = some res ∧ res.2.status = 200) ∧
        ∃ sched2 res, processConcurrentHandler decode clk sched2 w body = some res ∧
          res.2.status = 200)) ∧
    (∀ res, (processSingleHandler decode clk w body = some res ∨
        processConcurrentHandler decode clk sched w body = some res) →
      (res.2.status = 400 ↔ ∃ err, decode body w = .error err) ∧
      (res.2.status ≠ 400 → res.2.status = 200 ∧ ∃ js t, res.2 = .encoded js t) ∧
      ((∃ err, decode body w = .error err) →
        res.1 = w ∧ ∀ js t, res.2 ≠ .encoded js t)) ∧
    (∀ w1 toSort r, (sortSequential clk w1 toSort = some r ∨
        sortConcurrent clk sched w1 toSort = some r) → w1.tick < r.1.tick) := by
  refine ⟨?_, ?_, ?_, ?_⟩
  · intro err h
    exact ⟨processSingleHandler_error h, processConcurrentHandler_error h⟩
  · intro w1 req h
    refine ⟨processSingleHandler_ok h, processConcurrentHandler_ok h, ?_⟩
    intro hwf
    obtain ⟨w2, out, hs, _, _⟩ := sortSequential_post clk w1 req.toSort hwf
    have he : execute clk [] w1 req.toSort = some (initConfig (makeRows w1 (lenOf req.toSort)).1) :=
      rfl
    obtain ⟨rest, r, hr⟩ := execute_completes hwf he
    rw [List.nil_append] at hr
    refine ⟨⟨(w2, Reply.encoded (encodeRows w2 out)
        (clk (w1.tick + 1 + 4 * lenOf req.toSort) - clk w1.tick)), ?_, rfl⟩,
      rest, (r.1, Reply.encoded (encodeRows r.1 r.2.1) r.2.2), ?_, rfl⟩
    · rw [processSingleHandler_ok h, hs]
      rfl
    · rw [processConcurrentHandler_ok h, hr]
      rfl
  · intro res hres
    cases hd : decode body w with
    | error err =>
      have hr : res = (w, .httpError err 400) := by
        rcases hres with h | h
        · rw [processSingleHandler_error hd] at h
          exact (Option.some.inj h).symm
        · rw [processConcurrentHandler_error hd] at h
          exact (Option.some.inj h).symm
      subst hr
      refine ⟨⟨fun _ => ⟨err, rfl⟩, fun _ => rfl⟩, fun h => absurd rfl h, fun _ => ⟨rfl, ?_⟩⟩
      intro js t hcon
      cases hcon
    | ok p =>
      obtain ⟨w1, req⟩ := p
      have hr : ∃ w2 js t, res = (w2, Reply.encoded js t) := by
        rcases hres with h | h
        · rw [processSingleHandler_ok hd] at h
          cases hs : sortSequential clk w1 req.toSort with
          | none => simp [hs] at h
          | some r =>
            simp only [hs, Option.map_some', Option.some.injEq] at h
            exact ⟨_, _, _, h.symm⟩
        · rw [processConcurrentHandler_ok hd] at h
          cases hs : sortConcurrent clk sched w1 req.toSort with
          | none => simp [hs] at h
          | some r =>
            simp only [hs, Option.map_some', Option.some.injEq] at h
            exact ⟨_, _, _, h.symm⟩
      obtain ⟨w2, js, t, rfl⟩ := hr
      refine ⟨⟨fun h => ?_, fun h => ?_⟩, fun _ => ⟨rfl, js, t, rfl⟩, fun h => ?_⟩
      · simp [Reply.status] at h
      · obtain ⟨err, he⟩ := h
        cases he
      · obtain ⟨err, he⟩ := h
        cases he
  · intro w1 toSort r hr
    rcases hr with h | h
    · have := sortSequential_tick h
      omega
    · have := sortConcurrent_tick h
      omega

/-- C3 with a decoder that accepts the body `null` (nil `to_sort`) and rejects
everything else: the body `[` is answered with status 400 and the decoder's
message, the body `null` with status 200 and `sorted_arrays` equal to `[]`. -/
theorem C3_bad_request_iff_decode_fails_witness :
    processSingleHandler
        (fun body w => if body = "null" then .ok (w, ⟨none⟩) else .error "unexpected end of JSON input")
        (fun n => (n : Int)) ⟨[], [], 0⟩ "["
      = some (⟨[], [], 0⟩, .httpError "unexpected end of JSON input" 400) ∧
    processSingleHandler
        (fun body w => if body = "null" then .ok (w, ⟨none⟩) else .error "unexpected end of JSON input")
        (fun n => (n : Int)) ⟨[], [], 0⟩ "null"
      = some (⟨[], [[]], 1⟩, .encoded (some []) 1) :=
  ⟨((C3_bad_request_iff_decode_fails
      (fun body w => if body = "null" then .ok (w, ⟨none⟩) else .error "unexpected end of JSON input")
      (fun n => (n : Int)) [] ⟨[], [], 0⟩ "[").1 "unexpected end of JSON input" (by simp)).1,
    by decide⟩

/-- C5: in every execution of `sortConcurrent` on a well-formed batch, the
goroutines started are those for the indices `0, 1, ...` in order, one each and
at most one per sub-array; the main goroutine writes no output slot and a step
of the goroutine for index `i` changes no output slot other than slot `i`; and
when `sortConcurrent` returns, whatever the schedule, one goroutine per index
has run to its end and slot `i` of the output holds the sorted elements of
`toSort[i]`. -/
theorem C5_slot_per_task_any_schedule (clk : Nat → Int) (w : World) (toSort : BatchSlice)
    (hwf : WF w toSort) :
    (∀ sched c, execute clk sched w toSort = some c →
      c.tasks.map Task.index = List.range c.tasks.length ∧
      c.tasks.length ≤ lenOf toSort ∧
      (∀ c2, stepMain clk (clk w.tick) toSort c = some c2 → outArr w c2 = outArr w c) ∧
      (∀ j c2, stepTask (some ⟨w.rows.length, 0, lenOf toSort⟩) c j = some c2 →
        ∃ t, c.tasks[j]? = some t ∧ t.index = j ∧
          ∀ m, m ≠ t.index → (outArr w c2)[m]? = (outArr w c)[m]?)) ∧
    (∀ sched r, sortConcurrent clk sched w toSort = some r →
      (∃ c, execute clk sched w toSort = some c ∧ c.world = r.1 ∧
        c.tasks.map Task.index = List.range (lenOf toSort) ∧ ∀ t ∈ c.tasks, t.pc = 5) ∧
      ∀ i, i < lenOf toSort →
        (contents r.1 r.2.1)[i]? = some (sortInts ((contents w toSort).getD i []))) := by
  have hl : (readRows w toSort).length = lenOf toSort := readRows_length w toSort hwf.1
  refine ⟨?_, ?_⟩
  · intro sched c hc
    have hinv := execute_inv hwf hc
    refine ⟨hinv.indices, by rw [← hl]; exact hinv.tasks_le, fun c2 h2 => stepMain_out h2, ?_⟩
    intro j c2 h2
    rw [← hl] at h2
    exact stepTask_out hinv j h2
  · intro sched r hr
    obtain ⟨c, hinv, hret, hw, _, hrun⟩ := sortConcurrent_some hwf hr
    obtain ⟨hlen, hpc, _⟩ := hinv.all_done hret
    refine ⟨⟨c, ?_, hw, ?_, hpc⟩, ?_⟩
    · rw [execute_eq clk sched w toSort hwf]
      exact hrun
    · rw [hinv.indices, hlen, hl]
    · intro i hi
      have hlc := contents_length w toSort hwf.1
      rw [(sortConcurrent_post hwf hr).1.contents_eq hwf, List.getElem?_map,
        List.getElem?_eq_getElem (by omega), List.getD_eq_getElem _ _ (by omega)]
      rfl

/-- C5 at the batch `[[2, 1], [9, 8, 7]]`, the second goroutine running first. -/
theorem C5_slot_per_task_any_schedule_witness :
    WF (worldOf [[2, 1], [9, 8, 7]]) (batchOf [[2, 1], [9, 8, 7]]) ∧
    ∃ r, sortConcurrent (fun n => (n : Int))
        [.main, .main, .main, .main, .task 1, .task 1, .task 1, .task 1, .task 1,
          .task 0, .task 0, .task 0, .task 0, .task 0, .main, .main]
        (worldOf [[2, 1], [9, 8, 7]]) (batchOf [[2, 1], [9, 8, 7]]) = some r ∧
      (contents r.1 r.2.1)[0]? = some [1, 2] ∧ (contents r.1 r.2.1)[1]? = some [7, 8, 9] :=
  ⟨by decide, by
    have hall := (C5_slot_per_task_any_schedule (fun n => (n : Int))
      (worldOf [[2, 1], [9, 8, 7]]) (batchOf [[2, 1], [9, 8, 7]]) (by decide)).2
    have hsome : (sortConcurrent (fun n => (n : Int))
        [.main, .main, .main, .main, .task 1, .task 1, .task 1, .task 1, .task 1,
          .task 0, .task 0, .task 0, .task 0, .task 0, .main, .main]
        (worldOf [[2, 1], [9, 8, 7]]) (batchOf [[2, 1], [9, 8, 7]])).isSome = true := by
      decide
    obtain ⟨r, hr⟩ := Option.isSome_iff_exists.1 hsome
    obtain ⟨_, hslots⟩ := hall _ r hr
    refine ⟨r, hr, ?_, ?_⟩
    · rw [hslots 0 (by decide), contents_worldOf]
      decide
    · rw [hslots 1 (by decide), contents_worldOf]
      decide⟩

/-- C7: for a well-formed batch of length 0, `sortSequential` returns an empty
list of arrays, `sortConcurrent` returns (its only execution is two steps of
the main goroutine) an empty list of arrays, and both handlers encode
`sorted_arrays` as the empty list `[]`. -/
theorem C7_empty_batch (clk : Nat → Int) (w : World) (toSort : BatchSlice)
    (hwf : WF w toSort) (hlen : lenOf toSort = 0) :
    (∃ w1 out t, sortSequential clk w toSort = some (w1, out, t) ∧
      contents w1 out = [] ∧ encodeRows w1 out = some []) ∧
    (∃ r, sortConcurrent clk [.main, .main] w toSort = some r) ∧
    (∀ sched r, sortConcurrent clk sched w toSort = some r →
      contents r.1 r.2.1 = [] ∧ encodeRows r.1 r.2.1 = some []) ∧
    (∀ (decode : String → World → Except String (World × SortRequest)) (body : String)
        (w0 : World), decode body w0 = .ok (w, ⟨toSort⟩) →
      (∃ w1 t, processSingleHandler decode clk w0 body = some (w1, .encoded (some []) t)) ∧
      (∃ w1 t, processConcurrentHandler decode clk [.main, .main] w0 body
        = some (w1, .encoded (some []) t)) ∧
      ∀ sched res, processConcurrentHandler decode clk sched w0 body = some res →
        ∃ t, res.2 = .encoded (some []) t) := by
  have hc0 : contents w toSort = [] :=
    List.eq_nil_of_length_eq_zero (by rw [contents_length w toSort hwf.1, hlen])
  have hseq : ∃ w1 out t, sortSequential clk w toSort = some (w1, out, t) ∧
      contents w1 out = [] ∧ encodeRows w1 out = some [] := by
    obtain ⟨w1, out, h, _, hp⟩ := sortSequential_post clk w toSort hwf
    refine ⟨w1, out, _, h, ?_, ?_⟩
    · rw [hp.contents_eq hwf, hc0]
      rfl
    · rw [hp.encode_eq hwf, hc0]
      rfl
  have hconc : ∀ sched r, sortConcurrent clk sched w toSort = some r →
      contents r.1 r.2.1 = [] ∧ encodeRows r.1 r.2.1 = some [] := by
    intro sched r hr
    have hp := (sortConcurrent_post hwf hr).1
    refine ⟨?_, ?_⟩
    · rw [hp.contents_eq hwf, hc0]
      rfl
    · rw [hp.encode_eq hwf, hc0]
      rfl
  have hrun : ∃ r, sortConcurrent clk [.main, .main] w toSort = some r := by
    simp [sortConcurrent, run, step, stepMain, initConfig, hlen]
  refine ⟨hseq, hrun, hconc, ?_⟩
  intro decode body w0 hd
  refine ⟨?_, ?_, ?_⟩
  · obtain ⟨w1, out, t, h, _, he⟩ := hseq
    refine ⟨w1, t, ?_⟩
    rw [processSingleHandler_ok hd, h]
    simp only [Option.map_some', he]
  · obtain ⟨r, hr⟩ := hrun
    refine ⟨r.1, r.2.2, ?_⟩
    rw [processConcurrentHandler_ok hd, hr]
    simp only [Option.map_some', (hconc _ r hr).2]
  · intro sched res hres
    rw [processConcurrentHandler_ok hd] at hres
    cases hs : sortConcurrent clk sched w toSort with
    | none => simp [hs] at hres
    | some r =>
      simp only [hs, Option.map_some', Option.some.injEq] at hres
      subst hres
      exact ⟨r.2.2, by simp only [(hconc _ r hs).2]⟩

/-- C7 at the empty batch. -/
theorem C7_empty_batch_witness :
    WF (worldOf []) (batchOf []) ∧ lenOf (batchOf []) = 0 ∧
    ∃ w1 out t, sortSequential (fun n => (n : Int)) (worldOf []) (batchOf [])
        = some (w1, out, t) ∧ contents w1 out = [] ∧ encodeRows w1 out = some [] :=
  ⟨by decide, by decide,
    (C7_empty_batch (fun n => (n : Int)) (worldOf []) (batchOf []) (by decide) (by decide)).1⟩

/-- C8: for every well-formed batch, the `time_ns` of `sortSequential` is the
clock reading in the final state, in which every sub-array is sorted, minus
the reading in the initial state, before `make`; the `time_ns` of
`sortConcurrent` is, for every schedule, the reading the main goroutine takes
when it passes `wg.Wait()`, every goroutine having finished, minus the reading
in the initial state; `sortConcurrent` does return such a `time_ns` (under
some schedule, and from every execution by continuing it). Under a
non-decreasing clock both are non-negative. In the handlers, which both
answer, the initial state of the sorter is the state after decoding, and
nothing is measured after the sorter has returned. -/
theorem C8_elapsed_time (clk : Nat → Int) (w : World) (toSort : BatchSlice)
    (hwf : WF w toSort) :
    (∃ w1 out, sortSequential clk w toSort = some (w1, out, clk w1.tick - clk w.tick) ∧
      w1.tick = w.tick + 1 + 4 * lenOf toSort ∧
      contents w1 out = (contents w toSort).map sortInts) ∧
    (∀ sched r, sortConcurrent clk sched w toSort = some r →
      ∃ s c, sched = s ++ [Actor.main] ∧ execute clk s w toSort = some c ∧
        c.main = .wait ∧ c.tasks.length = lenOf toSort ∧ (∀ t ∈ c.tasks, t.pc = 5) ∧
        c.world.tick = w.tick + 7 * lenOf toSort + 2 ∧
        r.2.2 = clk c.world.tick - clk w.tick) ∧
    (∃ sched r, sortConcurrent clk sched w toSort = some r ∧
      r.2.2 = clk (w.tick + 7 * lenOf toSort + 2) - clk w.tick ∧
      contents r.1 r.2.1 = (contents w toSort).map sortInts) ∧
    (∀ sched c, execute clk sched w toSort = some c →
      ∃ rest rc, sortConcurrent clk (sched ++ rest) w toSort = some rc ∧
        rc.2.2 = clk (w.tick + 7 * lenOf toSort + 2) - clk w.tick) ∧
    (Monotone clk → ∀ r, (sortSequential clk w toSort = some r ∨
        ∃ sched, sortConcurrent clk sched w toSort = some r) → 0 ≤ r.2.2) ∧
    (∀ (decode : String → World → Except String (World × SortRequest)) (body : String)
        (w0 : World), decode body w0 = .ok (w, ⟨toSort⟩) →
      (∃ w1 js, processSingleHandler decode clk w0 body
        = some (w1, .encoded js (clk w1.tick - clk w.tick))) ∧
      (∃ sched w1 js, processConcurrentHandler decode clk sched w0 body
        = some (w1, .encoded js (clk (w.tick + 7 * lenOf toSort + 2) - clk w.tick))) ∧
      ∀ sched res, processConcurrentHandler decode clk sched w0 body = some res →
        ∃ js, res.2 = .encoded js (clk (w.tick + 7 * lenOf toSort + 2) - clk w.tick)) := by
  obtain ⟨w1, out, h, ht, hp⟩ := sortSequential_post clk w toSort hwf
  obtain ⟨sc, rc, hrc⟩ := (sortConcurrent_returns clk w toSort hwf).1
  refine ⟨⟨w1, out, by rw [ht]; exact h, ht, hp.contents_eq hwf⟩, ?_,
    ⟨sc, rc, hrc, (sortConcurrent_post hwf hrc).2.1,
      (sortConcurrent_post hwf hrc).1.contents_eq hwf⟩, ?_, ?_, ?_⟩
  · intro sched r hr
    exact sortConcurrent_last_step hwf hr
  · intro sched c hc
    obtain ⟨rest, r2, h2⟩ := (sortConcurrent_returns clk w toSort hwf).2 sched c hc
    exact ⟨rest, r2, h2, (sortConcurrent_post hwf h2).2.1⟩
  · intro hmono r hr
    rcases hr with hr | ⟨sched, hr⟩
    · rw [h] at hr
      cases hr
      exact Int.sub_nonneg.2 (hmono (by omega))
    · rw [(sortConcurrent_post hwf hr).2.1]
      exact Int.sub_nonneg.2 (hmono (by omega))
  · intro decode body w0 hd
    refine ⟨⟨w1, encodeRows w1 out, ?_⟩, ⟨sc, rc.1, encodeRows rc.1 rc.2.1, ?_⟩, ?_⟩
    · rw [processSingleHandler_ok hd, h, ht]
      rfl
    · rw [processConcurrentHandler_ok hd, hrc]
      simp only [Option.map_some', (sortConcurrent_post hwf hrc).2.1]
    · intro sched res hres
      rw [processConcurrentHandler_ok hd] at hres
      cases hs : sortConcurrent clk sched w toSort with
      | none => simp [hs] at hres
      | some r =>
        simp only [hs, Option.map_some', Option.some.injEq] at hres
        subst hres
        exact ⟨encodeRows r.1 r.2.1, by simp only [(sortConcurrent_post hwf hs).2.1]⟩

/-- C8 at the batch `[[5, 3, 1], [2, 2, 2], []]` with a clock that advances 10
nanoseconds a statement: `sortSequential` executes 13 statements before its
second reading, 130 nanoseconds; `sortConcurrent`, here with the goroutines
running one after the other in the order 2, 0, 1, executes 23 statements before
the reading at `wg.Wait()`, 230 nanoseconds. -/
theorem C8_elapsed_time_witness :
    WF (worldOf [[5, 3, 1], [2, 2, 2], []]) (batchOf [[5, 3, 1], [2, 2, 2], []]) ∧
    (∃ w1 out, sortSequential (fun n => 10 * (n : Int)) (worldOf [[5, 3, 1], [2, 2, 2], []])
        (batchOf [[5, 3, 1], [2, 2, 2], []]) = some (w1, out, 130)) ∧
    (∃ r, sortConcurrent (fun n => 10 * (n : Int))
        [.main, .main, .main, .main, .main, .main, .main,
          .task 2, .task 2, .task 2, .task 2, .task 2,
          .task 0, .task 0, .task 0, .task 0, .task 0,
          .task 1, .task 1, .task 1, .task 1, .task 1, .main]
        (worldOf [[5, 3, 1], [2, 2, 2], []]) (batchOf [[5, 3, 1], [2, 2, 2], []]) = some r ∧
      r.2.2 = 230) :=
  ⟨by decide, by
    obtain ⟨⟨w1, out, h, ht, _⟩, _⟩ := C8_elapsed_time (fun n => 10 * (n : Int))
      (worldOf [[5, 3, 1], [2, 2, 2], []]) (batchOf [[5, 3, 1], [2, 2, 2], []]) (by decide)
    refine ⟨w1, out, ?_⟩
    rw [h, ht]
    rfl, by
    obtain ⟨_, hlast, _⟩ := C8_elapsed_time (fun n => 10 * (n : Int))
      (worldOf [[5, 3, 1], [2, 2, 2], []]) (batchOf [[5, 3, 1], [2, 2, 2], []]) (by decide)
    have hsome : (sortConcurrent (fun n => 10 * (n : Int))
        [.main, .main, .main, .main, .main, .main, .main,
          .task 2, .task 2, .task 2, .task 2, .task 2,
          .task 0, .task 0, .task 0, .task 0, .task 0,
          .task 1, .task 1, .task 1, .task 1, .task 1, .main]
        (worldOf [[5, 3, 1], [2, 2, 2], []]) (batchOf [[5, 3, 1], [2, 2, 2], []])).isSome
        = true := by
      decide
    obtain ⟨r, hr⟩ := Option.isSome_iff_exists.1 hsome
    obtain ⟨s, c, _, _, _, _, _, htick, he⟩ := hlast _ r hr
    refine ⟨r, hr, ?_⟩
    rw [he, htick]
    rfl⟩

/-- C9: for every well-formed input, a nil outer slice and nil sub-arrays
included, both sorters return (`sortConcurrent` under some schedule, and from
every execution by continuing it); the slice either sorter returns is non-nil
and has the input's length, every sub-array in it is non-nil, and its JSON text
has no `null`: a nil sub-array of the input comes back as `[]`, and both
handlers, when the decoder yields a nil `to_sort`, reply with status 200 and
`sorted_arrays` equal to `[]`. -/
theorem C9_never_nil (clk : Nat → Int) (w : World) (toSort : BatchSlice) (hwf : WF w toSort) :
    (∃ r, sortSequential clk w toSort = some r) ∧
    (∃ sched r, sortConcurrent clk sched w toSort = some r) ∧
    (∀ sched c, execute clk sched w toSort = some c →
      ∃ rest rc, sortConcurrent clk (sched ++ rest) w toSort = some rc) ∧
    (∀ r, (sortSequential clk w toSort = some r ∨
        ∃ sched, sortConcurrent clk sched w toSort = some r) →
      (∃ h : Hdr, r.2.1 = some h ∧ h.len = lenOf toSort) ∧
      (readRows r.1 r.2.1).length = lenOf toSort ∧
      (∀ s ∈ readRows r.1 r.2.1, s ≠ none) ∧
      (∃ xs, encodeRows r.1 r.2.1 = some xs ∧ xs.length = lenOf toSort ∧
        (∀ x ∈ xs, x ≠ none) ∧
        ∀ i : Nat, (readRows w toSort)[i]? = some none → xs[i]? = some (some []))) ∧
    (∀ (decode : String → World → Except String (World × SortRequest)) (body : String)
        (w0 : World), decode body w0 = .ok (w, ⟨toSort⟩) →
      (∃ w1 xs t, processSingleHandler decode clk w0 body = some (w1, .encoded (some xs) t) ∧
        (Reply.encoded (some xs) t).status = 200 ∧ xs.length = lenOf toSort ∧
        (∀ x ∈ xs, x ≠ none) ∧ (toSort = none → xs = [])) ∧
      (∃ sched w1 xs t, processConcurrentHandler decode clk sched w0 body
          = some (w1, .encoded (some xs) t) ∧
        (Reply.encoded (some xs) t).status = 200 ∧ xs.length = lenOf toSort ∧
        (∀ x ∈ xs, x ≠ none) ∧ (toSort = none → xs = []))) := by
  have hlc := contents_length w toSort hwf.1
  have hxs : ∀ r, (sortSequential clk w toSort = some r ∨
        ∃ sched, sortConcurrent clk sched w toSort = some r) →
      ∃ xs, encodeRows r.1 r.2.1 = some xs ∧ xs.length = lenOf toSort ∧
        (∀ x ∈ xs, x ≠ none) ∧
        ∀ i : Nat, (readRows w toSort)[i]? = some none → xs[i]? = some (some []) := by
    intro r hr
    have hp := post_of_result hwf hr
    refine ⟨_, hp.encode_eq hwf, by rw [List.length_map, hlc], ?_, ?_⟩
    · intro x hx
      obtain ⟨l, _, rfl⟩ := List.mem_map.1 hx
      exact Option.some_ne_none _
    · intro i hi
      simp only [contents, List.getElem?_map, hi, Option.map_some']
      rfl
  obtain ⟨w1, out, h, _, hp⟩ := sortSequential_post clk w toSort hwf
  obtain ⟨sc, rc, hrc⟩ := (sortConcurrent_returns clk w toSort hwf).1
  refine ⟨⟨_, h⟩, ⟨sc, rc, hrc⟩, (sortConcurrent_returns clk w toSort hwf).2, ?_, ?_⟩
  · intro r hr
    have hpr := post_of_result hwf hr
    refine ⟨⟨_, hpr.out_eq, rfl⟩, hpr.out_len, ?_, hxs r hr⟩
    intro s hs
    obtain ⟨hd, rfl, _⟩ := hpr.slots_some s hs
    exact Option.some_ne_none _
  · intro decode body w0 hd
    refine ⟨?_, ?_⟩
    · obtain ⟨xs, he, hl, hnn, _⟩ := hxs _ (Or.inl h)
      simp only at he
      refine ⟨w1, xs, clk (w.tick + 1 + 4 * lenOf toSort) - clk w.tick, ?_, rfl, hl, hnn, ?_⟩
      · rw [processSingleHandler_ok hd, h]
        simp only [Option.map_some', he]
      · intro hnil
        subst hnil
        exact List.eq_nil_of_length_eq_zero hl
    · obtain ⟨xs, he, hl, hnn, _⟩ := hxs rc (Or.inr ⟨sc, hrc⟩)
      refine ⟨sc, rc.1, xs, rc.2.2, ?_, rfl, hl, hnn, ?_⟩
      · rw [processConcurrentHandler_ok hd, hrc]
        simp only [Option.map_some', he]
      · intro hnil
        subst hnil
        exact List.eq_nil_of_length_eq_zero hl

/-- C9 at a batch whose only sub-array is nil: both sorters return, and the
JSON text of either result is `[[]]`. -/
theorem C9_never_nil_witness :
    WF { ints := [], rows := [[none]], tick := 0 } (some ⟨0, 0, 1⟩) ∧
    (∃ r, sortSequential (fun n => (n : Int)) { ints := [], rows := [[none]], tick := 0 }
        (some ⟨0, 0, 1⟩) = some r ∧ encodeRows r.1 r.2.1 = some [some []]) ∧
    (∃ r, sortConcurrent (fun n => (n : Int))
        [.main, .main, .task 0, .task 0, .main, .task 0, .task 0, .task 0, .main]
        { ints := [], rows := [[none]], tick := 0 } (some ⟨0, 0, 1⟩) = some r ∧
      encodeRows r.1 r.2.1 = some [some []]) :=
  ⟨by decide, by
    obtain ⟨⟨r, hr⟩, _, _⟩ := C9_never_nil (fun n => (n : Int))
      { ints := [], rows := [[none]], tick := 0 } (some ⟨0, 0, 1⟩) (by decide)
    refine ⟨r, hr, ?_⟩
    have h2 : (sortSequential (fun n => (n : Int)) { ints := [], rows := [[none]], tick := 0 }
        (some ⟨0, 0, 1⟩)).map (fun r => encodeRows r.1 r.2.1) = some (some [some []]) := by
      decide
    rw [hr] at h2
    exact Option.some.inj h2, by
    obtain ⟨_, _, _, hall, _⟩ := C9_never_nil (fun n => (n : Int))
      { ints := [], rows := [[none]], tick := 0 } (some ⟨0, 0, 1⟩) (by decide)
    have h2 : (sortConcurrent (fun n => (n : Int))
        [.main, .main, .task 0, .task 0, .main, .task 0, .task 0, .task 0, .main]
        { ints := [], rows := [[none]], tick := 0 } (some ⟨0, 0, 1⟩)).map
          (fun r => encodeRows r.1 r.2.1) = some (some [some []]) := by
      decide
    cases hr : sortConcurrent (fun n => (n : Int))
        [.main, .main, .task 0, .task 0, .main, .task 0, .task 0, .task 0, .main]
        { ints := [], rows := [[none]], tick := 0 } (some ⟨0, 0, 1⟩) with
    | none =>
      rw [hr] at h2
      cases h2
    | some r =>
      rw [hr] at h2
      obtain ⟨_, hlen, _⟩ := hall r (Or.inr ⟨_, hr⟩)
      exact ⟨r, rfl, Option.some.inj h2⟩⟩

end SortServer
